import Mathlib

/-!
Shallow embedding of the Improvised Memory Manager
(backend/buddy_allocator.py): a linear-memory allocator combining
best-fit block selection, optional power-of-two size rounding, adjacent
free-block coalescing and compaction.

Python integers are modelled as Int, the ordered block list as
List MemoryBlock, and the insertion-ordered process dictionary as an
association list List (String × MemoryBlock).  Each operation is a pure
function from the manager state to a new state plus the returned tuple.
-/

/-- A memory block: `MemoryBlock(start, size, is_free, process_name)`. -/
structure MemoryBlock where
  start : Int
  size : Int
  is_free : Bool
  process_name : Option String
deriving Repr, DecidableEq

/-- Manager state: `total_memory`, ordered block list `blocks`, and the
process registry `process_map` (insertion-ordered association list). -/
structure Manager where
  total_memory : Int
  blocks : List MemoryBlock
  process_map : List (String × MemoryBlock)
deriving Repr, DecidableEq

/-- `_initialize_memory`: a single free block spanning the whole range. -/
def init_blocks (total_memory : Int) : List MemoryBlock :=
  [⟨0, total_memory, true, none⟩]

/-- `ImprovisedMemoryManager(total_memory)`: the constructor performs no
validation of the capacity. -/
def mk_manager (total_memory : Int) : Manager :=
  ⟨total_memory, init_blocks total_memory, []⟩

/-- `_round_to_power_of_2`: `1` for non-positive sizes, else the value of
`2 ** ceil(log2(size))`, i.e. the least power of two that is ≥ size
(`Nat.clog 2` is the exact integer ceiling of the base-2 logarithm). -/
def round_to_power_of_2 (size : Int) : Int :=
  if size ≤ 0 then 1 else (2 : Int) ^ Nat.clog 2 size.toNat

/-- One step of the `_find_best_fit` scan: the running best is replaced
exactly when the block is free, large enough, and strictly smaller than
the current best (`float('inf')` start is modelled by `none`). -/
def fbf_step (size : Int) (idx : Nat) (b : MemoryBlock) :
    Option (Nat × Int) → Option (Nat × Int)
  | none =>
    if b.is_free && decide (size ≤ b.size) then some (idx, b.size) else none
  | some (bi, bs) =>
    if b.is_free && decide (size ≤ b.size) && decide (b.size < bs) then
      some (idx, b.size)
    else some (bi, bs)

/-- The `enumerate` loop of `_find_best_fit`. -/
def fbf_aux (size : Int) : List MemoryBlock → Nat → Option (Nat × Int) →
    Option (Nat × Int)
  | [], _, best => best
  | b :: bs, idx, best => fbf_aux size bs (idx + 1) (fbf_step size idx b best)

/-- `_find_best_fit(size)`: index of the best-fit free block, or `none`. -/
def find_best_fit (blocks : List MemoryBlock) (size : Int) : Option Nat :=
  (fbf_aux size blocks 0 none).map Prod.fst

/-- Membership test `key in process_map` on the association list. -/
def map_has_key (pm : List (String × MemoryBlock)) (k : String) : Bool :=
  pm.any (fun p => decide (p.1 = k))

/-- `allocate(process_name, size, use_buddy)`.  Returns the new state with
the `(success, message, start_address)` tuple.  The block-list surgery
`blocks[best_idx] = allocated; blocks.insert(best_idx + 1, remaining)` is
rendered as a take/drop splice at `best_idx`. -/
def allocate (m : Manager) (process_name : String) (size : Int)
    (use_buddy : Bool) : Manager × Bool × String × Option Int :=
  if map_has_key m.process_map process_name then
    (m, false, "already allocated", none)
  else
    let actual_size := if use_buddy then round_to_power_of_2 size else size
    match find_best_fit m.blocks actual_size with
    | none => (m, false, "No suitable free block found. Try compaction.", none)
    | some best_idx =>
      match m.blocks.get? best_idx with
      | none => (m, false, "", none)
      | some block =>
        let start_address := block.start
        if actual_size < block.size then
          let allocated_block : MemoryBlock :=
            ⟨block.start, actual_size, false, some process_name⟩
          let remaining_block : MemoryBlock :=
            ⟨block.start + actual_size, block.size - actual_size, true, none⟩
          ({ m with
              blocks := m.blocks.take best_idx ++
                [allocated_block, remaining_block] ++
                m.blocks.drop (best_idx + 1),
              process_map := m.process_map ++ [(process_name, allocated_block)] },
            true, "allocated", some start_address)
        else
          let allocated_block : MemoryBlock :=
            { block with is_free := false, process_name := some process_name }
          ({ m with
              blocks := m.blocks.take best_idx ++ [allocated_block] ++
                m.blocks.drop (best_idx + 1),
              process_map := m.process_map ++ [(process_name, allocated_block)] },
            true, "allocated", some start_address)

/-- The deallocation loop: free the first allocated block owned by the
given process (the Python loop breaks after the first match). -/
def free_first (process_name : String) : List MemoryBlock → List MemoryBlock
  | [] => []
  | b :: bs =>
    if !b.is_free && decide (b.process_name = some process_name) then
      { b with is_free := true, process_name := none } :: bs
    else
      b :: free_first process_name bs

/-- `_merge_free_blocks`: collapse each run of consecutive free blocks
into one block carrying the summed size.  The Python loop absorbs a whole
run into its first block; absorbing one successor at a time, as here,
produces the same block since sizes just add up. -/
def merge_free_blocks : List MemoryBlock → List MemoryBlock
  | [] => []
  | [b] => [b]
  | a :: b :: rest =>
    if a.is_free && b.is_free then
      merge_free_blocks ({ a with size := a.size + b.size } :: rest)
    else
      a :: merge_free_blocks (b :: rest)
termination_by l => l.length

/-- `deallocate(process_name)`: returns new state plus `(success, message)`. -/
def deallocate (m : Manager) (process_name : String) :
    Manager × Bool × String :=
  if map_has_key m.process_map process_name then
    let blocks1 := free_first process_name m.blocks
    let new_map := m.process_map.filter (fun p => decide (p.1 ≠ process_name))
    ({ m with blocks := merge_free_blocks blocks1, process_map := new_map },
      true, "deallocated")
  else
    (m, false, "not found")

/-- The compaction placement loop: re-create each allocated block at the
running address, keeping its size and owner. -/
def place_blocks (addr : Int) : List MemoryBlock → List MemoryBlock
  | [] => []
  | b :: bs => ⟨addr, b.size, false, b.process_name⟩ :: place_blocks (addr + b.size) bs

/-- Dictionary assignment `process_map[k] = v`: overwrite in place when the
key exists, append otherwise. -/
def map_set (pm : List (String × MemoryBlock)) (k : String) (v : MemoryBlock) :
    List (String × MemoryBlock) :=
  if map_has_key pm k then
    pm.map (fun p => if p.1 = k then (k, v) else p)
  else
    pm ++ [(k, v)]

/-- The registry rebuild inside `compact`: for every re-placed block,
`process_map[block.process_name] = new_block`.  (Blocks allocated through
`allocate` always carry an owner, so the `none` case never fires.) -/
def register_blocks (pm : List (String × MemoryBlock)) :
    List MemoryBlock → List (String × MemoryBlock)
  | [] => pm
  | b :: bs =>
    match b.process_name with
    | some n => register_blocks (map_set pm n b) bs
    | none => register_blocks pm bs

/-- Sum of the sizes of a list of blocks (the final `current_address` of
the compaction loop, when started at 0). -/
def sum_sizes (bs : List MemoryBlock) : Int :=
  (bs.map (fun b => b.size)).sum

/-- `compact()`: returns the new state plus `(success, message, moved_count)`. -/
def compact (m : Manager) : Manager × Bool × String × Nat :=
  let allocated_blocks := m.blocks.filter (fun b => !b.is_free)
  if allocated_blocks.isEmpty then
    (m, false, "No allocated blocks to compact", 0)
  else
    let new_allocated := place_blocks 0 allocated_blocks
    let current_address := sum_sizes allocated_blocks
    let new_map := register_blocks m.process_map new_allocated
    let free_space := m.total_memory - current_address
    let new_blocks :=
      if 0 < free_space then
        new_allocated ++ [⟨current_address, free_space, true, none⟩]
      else new_allocated
    ({ m with blocks := new_blocks, process_map := new_map },
      true, "Memory compacted successfully", allocated_blocks.length)

/-- `get_used_memory`. -/
def get_used_memory (m : Manager) : Int :=
  sum_sizes (m.blocks.filter (fun b => !b.is_free))

/-- `get_free_memory`. -/
def get_free_memory (m : Manager) : Int :=
  sum_sizes (m.blocks.filter (fun b => b.is_free))

/-- `get_fragmentation_ratio`, with the float division modelled in ℚ. -/
def get_fragmentation_ratio (m : Manager) : Rat :=
  let free_blocks := m.blocks.filter (fun b => b.is_free)
  if free_blocks.length ≤ 1 then 0
  else ((free_blocks.length : Rat) - 1) / (m.blocks.length : Rat)

/-- `reset(new_total_memory)`: a Python falsy argument (absent or 0)
keeps the old capacity; any other value becomes the new capacity. -/
def reset (m : Manager) (new_total_memory : Option Int) : Manager :=
  let t :=
    match new_total_memory with
    | some c => if c = 0 then m.total_memory else c
    | none => m.total_memory
  ⟨t, init_blocks t, []⟩

/-- One API call against the manager. -/
inductive Op where
  | alloc (process_name : String) (size : Int) (use_buddy : Bool)
  | dealloc (process_name : String)
  | compactAll
  | resetTo (new_total_memory : Option Int)
deriving Repr, DecidableEq

/-- Apply one call, keeping only the state. -/
def apply_op (m : Manager) : Op → Manager
  | Op.alloc n s b => (allocate m n s b).1
  | Op.dealloc n => (deallocate m n).1
  | Op.compactAll => (compact m).1
  | Op.resetTo c => reset m c

/-- Run a sequence of calls from a state. -/
def run_ops (m : Manager) (ops : List Op) : Manager :=
  ops.foldl apply_op m

/-! ## Layout and registry invariants -/

/-- The block list chains from position `pos`: each block starts where its
predecessor ended and has positive size. -/
def chain_ok : Int → List MemoryBlock → Bool
  | _, [] => true
  | pos, b :: bs =>
    decide (b.start = pos) && decide (0 < b.size) && chain_ok (b.start + b.size) bs

/-- Where a chained block list ends, starting from `pos`. -/
def end_pos : Int → List MemoryBlock → Int
  | pos, [] => pos
  | _, b :: bs => end_pos (b.start + b.size) bs

/-- No two adjacent blocks are both free. -/
def no_adj_free : List MemoryBlock → Bool
  | a :: b :: bs => (!(a.is_free && b.is_free)) && no_adj_free (b :: bs)
  | _ => true

/-- The block list partitions `[0, total)` exactly. -/
def blocks_partition (total : Int) (bs : List MemoryBlock) : Bool :=
  chain_ok 0 bs && decide (end_pos 0 bs = total)

/-- The full block-layout invariant of the spec. -/
def layout_ok (m : Manager) : Bool :=
  blocks_partition m.total_memory m.blocks && no_adj_free m.blocks

/-- Owner names of the non-free blocks, in list order. -/
def owners (bs : List MemoryBlock) : List String :=
  bs.filterMap (fun b => if b.is_free then none else b.process_name)

/-- Keys of the registry, in list order. -/
def map_keys (pm : List (String × MemoryBlock)) : List String :=
  pm.map Prod.fst

/-- Registry consistency: owners and keys are duplicate-free, every entry
points at the (unique) non-free block bearing its name, every non-free
block is registered, and free blocks carry no owner. -/
def registry_consistent (m : Manager) : Bool :=
  decide ((owners m.blocks).Nodup) &&
  decide ((map_keys m.process_map).Nodup) &&
  m.process_map.all (fun p =>
    m.blocks.any (fun b => decide (b = p.2)) && !p.2.is_free &&
    decide (p.2.process_name = some p.1)) &&
  m.blocks.all (fun b =>
    if b.is_free then decide (b.process_name = none)
    else
      match b.process_name with
      | some n => map_has_key m.process_map n
      | none => false)

/-- States with positive capacity satisfying the layout invariant. -/
def good_state (m : Manager) : Bool :=
  decide (0 < m.total_memory) && layout_ok m

/-- Calls that stay inside the intended use of the engine: allocation
sizes are positive unless rounding is on (rounding forces a positive
actual size), and reset capacities are absent, zero (ignored) or
positive. -/
def op_ok : Op → Bool
  | Op.alloc _ s use_buddy => use_buddy || decide (0 < s)
  | Op.dealloc _ => true
  | Op.compactAll => true
  | Op.resetTo c =>
    match c with
    | none => true
    | some v => decide (0 ≤ v)

/-! ## Basic lemmas about the layout predicates -/

theorem chain_ok_append (pos : Int) (xs ys : List MemoryBlock) :
    chain_ok pos (xs ++ ys) =
      (chain_ok pos xs && chain_ok (end_pos pos xs) ys) := by
  induction xs generalizing pos with
  | nil => simp [chain_ok, end_pos]
  | cons x xs ih =>
    simp only [List.cons_append, chain_ok, end_pos, List.append_eq, ih,
      Bool.and_assoc]

theorem end_pos_append (pos : Int) (xs ys : List MemoryBlock) :
    end_pos pos (xs ++ ys) = end_pos (end_pos pos xs) ys := by
  induction xs generalizing pos with
  | nil => simp [end_pos]
  | cons x xs ih => simp only [List.cons_append, end_pos, List.append_eq, ih]

theorem chain_ok_sizes_pos {pos : Int} {bs : List MemoryBlock}
    (h : chain_ok pos bs = true) : ∀ b ∈ bs, 0 < b.size := by
  induction bs generalizing pos with
  | nil => intro b hb; simp at hb
  | cons x xs ih =>
    simp only [chain_ok, Bool.and_eq_true, decide_eq_true_eq] at h
    obtain ⟨⟨h1, h2⟩, h3⟩ := h
    intro b hb
    rcases List.mem_cons.mp hb with rfl | hb
    · exact h2
    · exact ih h3 b hb

theorem end_pos_eq_add_sum {pos : Int} {bs : List MemoryBlock}
    (h : chain_ok pos bs = true) : end_pos pos bs = pos + sum_sizes bs := by
  induction bs generalizing pos with
  | nil => simp [end_pos, sum_sizes]
  | cons x xs ih =>
    simp only [chain_ok, Bool.and_eq_true, decide_eq_true_eq] at h
    obtain ⟨⟨h1, h2⟩, h3⟩ := h
    simp only [end_pos, sum_sizes, List.map_cons, List.sum_cons] at ih ⊢
    rw [ih h3, h1]
    ring

theorem no_adj_free_tail {b : MemoryBlock} {bs : List MemoryBlock}
    (h : no_adj_free (b :: bs) = true) : no_adj_free bs = true := by
  cases bs with
  | nil => rfl
  | cons c cs =>
    simp only [no_adj_free, Bool.and_eq_true] at h
    exact h.2

/-! ## Lemmas about `merge_free_blocks` -/

theorem merge_cons_cons_pos {a b : MemoryBlock} {rest : List MemoryBlock}
    (h : (a.is_free && b.is_free) = true) :
    merge_free_blocks (a :: b :: rest) =
      merge_free_blocks ({ a with size := a.size + b.size } :: rest) := by
  simp [merge_free_blocks, h]

theorem merge_cons_cons_neg {a b : MemoryBlock} {rest : List MemoryBlock}
    (h : ¬ (a.is_free && b.is_free) = true) :
    merge_free_blocks (a :: b :: rest) =
      a :: merge_free_blocks (b :: rest) := by
  simp [merge_free_blocks, h]

theorem merge_nil : merge_free_blocks [] = [] := by
  simp [merge_free_blocks]

theorem merge_single {b : MemoryBlock} : merge_free_blocks [b] = [b] := by
  simp [merge_free_blocks]

theorem merge_id_of_no_adj {l : List MemoryBlock}
    (h : no_adj_free l = true) : merge_free_blocks l = l := by
  induction l using merge_free_blocks.induct with
  | case1 => exact merge_nil
  | case2 b => exact merge_single
  | case3 a b rest hfree ih =>
    exfalso
    simp only [no_adj_free, Bool.and_eq_true] at h
    rw [hfree] at h
    simp at h
  | case4 a b rest hfree ih =>
    rw [merge_cons_cons_neg hfree, ih (no_adj_free_tail h)]

theorem merge_head (l : List MemoryBlock) :
    ∀ b rest, l = b :: rest →
      ∃ c cs, merge_free_blocks l = c :: cs ∧
        c.is_free = b.is_free ∧ c.start = b.start := by
  induction l using merge_free_blocks.induct with
  | case1 => intro b rest h; cases h
  | case2 x =>
    intro b rest h
    cases h
    exact ⟨x, [], merge_single, rfl, rfl⟩
  | case3 a x rest hfree ih =>
    intro b r h
    injection h with h1 h2
    subst h1
    obtain ⟨c, cs, hc, hfr, hst⟩ := ih _ _ rfl
    exact ⟨c, cs, (merge_cons_cons_pos hfree).trans hc, hfr, hst⟩
  | case4 a x rest hfree ih =>
    intro b r h
    injection h with h1 h2
    subst h1
    exact ⟨a, merge_free_blocks (x :: rest), merge_cons_cons_neg hfree, rfl, rfl⟩

theorem chain_ok_cons {pos : Int} {b : MemoryBlock} {bs : List MemoryBlock} :
    chain_ok pos (b :: bs) = true ↔
      b.start = pos ∧ 0 < b.size ∧ chain_ok (b.start + b.size) bs = true := by
  simp [chain_ok, and_assoc]

theorem no_adj_free_cons {a b : MemoryBlock} {bs : List MemoryBlock} :
    no_adj_free (a :: b :: bs) = true ↔
      (a.is_free && b.is_free) = false ∧ no_adj_free (b :: bs) = true := by
  simp only [no_adj_free, Bool.and_eq_true, Bool.not_eq_true']

theorem bool_and_false_of_not {x : Bool} (h : ¬ x = true) : x = false := by
  cases hx : x
  · rfl
  · exact absurd hx h

theorem no_adj_free_merge (l : List MemoryBlock) :
    no_adj_free (merge_free_blocks l) = true := by
  induction l using merge_free_blocks.induct with
  | case1 => rw [merge_nil]; rfl
  | case2 b => rw [merge_single]; rfl
  | case3 a b rest hfree ih => rw [merge_cons_cons_pos hfree]; exact ih
  | case4 a b rest hfree ih =>
    rw [merge_cons_cons_neg hfree]
    obtain ⟨c, cs, hc, hfr, _⟩ := merge_head (b :: rest) b rest rfl
    rw [hc]
    rw [hc] at ih
    exact no_adj_free_cons.mpr ⟨by rw [hfr]; exact bool_and_false_of_not hfree, ih⟩

theorem merge_chain {pos : Int} (l : List MemoryBlock)
    (h : chain_ok pos l = true) :
    chain_ok pos (merge_free_blocks l) = true ∧
      end_pos pos (merge_free_blocks l) = end_pos pos l := by
  induction l using merge_free_blocks.induct generalizing pos with
  | case1 => rw [merge_nil]; exact ⟨rfl, rfl⟩
  | case2 b => rw [merge_single]; exact ⟨h, rfl⟩
  | case3 a b rest hfree ih =>
    rw [merge_cons_cons_pos hfree]
    obtain ⟨ha, hsa, h2⟩ := chain_ok_cons.mp h
    obtain ⟨hb, hsb, h3⟩ := chain_ok_cons.mp h2
    have hab : a.start + (a.size + b.size) = b.start + b.size := by omega
    have hchain2 : chain_ok pos ({ a with size := a.size + b.size } :: rest) = true := by
      refine chain_ok_cons.mpr ⟨ha, by show 0 < a.size + b.size; omega, ?_⟩
      show chain_ok (a.start + (a.size + b.size)) rest = true
      rw [hab]
      exact h3
    obtain ⟨h1, h2'⟩ := ih hchain2
    refine ⟨h1, ?_⟩
    rw [h2']
    show end_pos (a.start + (a.size + b.size)) rest = end_pos pos (a :: b :: rest)
    simp only [end_pos]
    rw [hab]
  | case4 a b rest hfree ih =>
    rw [merge_cons_cons_neg hfree]
    obtain ⟨ha, hsa, h2⟩ := chain_ok_cons.mp h
    obtain ⟨h1, h2'⟩ := ih h2
    refine ⟨chain_ok_cons.mpr ⟨ha, hsa, h1⟩, ?_⟩
    show end_pos (a.start + a.size) (merge_free_blocks (b :: rest)) =
      end_pos pos (a :: b :: rest)
    simp only [end_pos]
    exact h2'

theorem merge_filter_alloc (l : List MemoryBlock) :
    (merge_free_blocks l).filter (fun b => !b.is_free) =
      l.filter (fun b => !b.is_free) := by
  induction l using merge_free_blocks.induct with
  | case1 => rw [merge_nil]
  | case2 b => rw [merge_single]
  | case3 a b rest hfree ih =>
    rw [merge_cons_cons_pos hfree, ih]
    simp only [Bool.and_eq_true] at hfree
    simp [List.filter_cons, hfree.1, hfree.2]
  | case4 a b rest hfree ih =>
    rw [merge_cons_cons_neg hfree, List.filter_cons, List.filter_cons, ih]

theorem merge_free_none (l : List MemoryBlock)
    (h : ∀ b ∈ l, b.is_free = true → b.process_name = none) :
    ∀ b ∈ merge_free_blocks l, b.is_free = true → b.process_name = none := by
  induction l using merge_free_blocks.induct with
  | case1 => rw [merge_nil]; exact h
  | case2 b => rw [merge_single]; exact h
  | case3 a b rest hfree ih =>
    rw [merge_cons_cons_pos hfree]
    refine ih ?_
    intro c hc hcf
    rcases List.mem_cons.mp hc with rfl | hc
    · exact h a (by simp) (by simp only [Bool.and_eq_true] at hfree; exact hfree.1)
    · exact h c (by simp [hc]) hcf
  | case4 a b rest hfree ih =>
    rw [merge_cons_cons_neg hfree]
    intro c hc hcf
    rcases List.mem_cons.mp hc with rfl | hc
    · exact h c (by simp) hcf
    · exact ih (fun d hd hdf => h d (by simp [List.mem_cons.mp hd]) hdf) c hc hcf

theorem no_adj_free_suffix {xs l : List MemoryBlock}
    (h : no_adj_free (xs ++ l) = true) : no_adj_free l = true := by
  induction xs with
  | nil => exact h
  | cons x xs ih => exact ih (no_adj_free_tail (by simpa using h))

theorem no_adj_replace1 {xs ys : List MemoryBlock} {b A : MemoryBlock}
    (hA : A.is_free = false)
    (h : no_adj_free (xs ++ b :: ys) = true) :
    no_adj_free (xs ++ A :: ys) = true := by
  induction xs with
  | nil =>
    simp only [List.nil_append] at h ⊢
    cases ys with
    | nil => rfl
    | cons y ys' =>
      refine no_adj_free_cons.mpr ⟨?_, (no_adj_free_cons.mp h).2⟩
      rw [hA]; rfl
  | cons x xs ih =>
    simp only [List.cons_append] at h ⊢
    cases xs with
    | nil =>
      simp only [List.nil_append] at ih h ⊢
      refine no_adj_free_cons.mpr ⟨?_, ih (no_adj_free_tail h)⟩
      rw [hA]; simp
    | cons x2 xs' =>
      simp only [List.cons_append] at ih h ⊢
      refine no_adj_free_cons.mpr ⟨(no_adj_free_cons.mp h).1, ?_⟩
      exact ih (no_adj_free_tail h)

theorem no_adj_replace2 {xs ys : List MemoryBlock} {b A R : MemoryBlock}
    (hA : A.is_free = false) (hb : b.is_free = true)
    (h : no_adj_free (xs ++ b :: ys) = true) :
    no_adj_free (xs ++ A :: R :: ys) = true := by
  induction xs with
  | nil =>
    simp only [List.nil_append] at h ⊢
    refine no_adj_free_cons.mpr ⟨by rw [hA]; rfl, ?_⟩
    cases ys with
    | nil => rfl
    | cons y ys' =>
      have hy : y.is_free = false := by
        have := (no_adj_free_cons.mp h).1
        rw [hb] at this; simpa using this
      refine no_adj_free_cons.mpr ⟨by rw [hy]; simp, (no_adj_free_cons.mp h).2⟩
  | cons x xs ih =>
    simp only [List.cons_append] at h ⊢
    cases xs with
    | nil =>
      simp only [List.nil_append] at ih h ⊢
      refine no_adj_free_cons.mpr ⟨?_, ih (no_adj_free_tail h)⟩
      rw [hA]; simp
    | cons x2 xs' =>
      simp only [List.cons_append] at ih h ⊢
      refine no_adj_free_cons.mpr ⟨(no_adj_free_cons.mp h).1, ?_⟩
      exact ih (no_adj_free_tail h)

theorem merge_splice {xs ys : List MemoryBlock} {b af r : MemoryBlock}
    (hb : b.is_free = true) (haf : af.is_free = true) (hr : r.is_free = true)
    (h : no_adj_free (xs ++ b :: ys) = true) :
    merge_free_blocks (xs ++ af :: r :: ys) =
      xs ++ { af with size := af.size + r.size } :: ys := by
  induction xs with
  | nil =>
    simp only [List.nil_append] at h ⊢
    rw [merge_cons_cons_pos (by rw [haf, hr]; rfl)]
    cases ys with
    | nil => exact merge_single
    | cons y ys' =>
      have hy : y.is_free = false := by
        have := (no_adj_free_cons.mp h).1
        rw [hb] at this; simpa using this
      rw [merge_cons_cons_neg (by rw [hy]; simp)]
      rw [merge_id_of_no_adj (no_adj_free_tail h)]
  | cons x xs ih =>
    simp only [List.cons_append] at h ⊢
    cases xs with
    | nil =>
      simp only [List.nil_append] at ih h ⊢
      have hx : x.is_free = false := by
        have := (no_adj_free_cons.mp h).1
        rw [hb] at this; simpa using this
      rw [merge_cons_cons_neg (by rw [hx]; simp)]
      rw [ih (no_adj_free_tail h)]
    | cons x2 xs' =>
      simp only [List.cons_append] at ih h ⊢
      have hpair := (no_adj_free_cons.mp h).1
      rw [merge_cons_cons_neg (by rw [hpair]; simp)]
      rw [ih (no_adj_free_tail h)]

/-! ## Lemmas about `free_first` -/

theorem free_first_chain {name : String} (l : List MemoryBlock) (pos : Int) :
    chain_ok pos (free_first name l) = chain_ok pos l := by
  induction l generalizing pos with
  | nil => rfl
  | cons b bs ih =>
    simp only [free_first]
    split
    · rfl
    · simp only [chain_ok]; rw [ih]

theorem free_first_end {name : String} (l : List MemoryBlock) (pos : Int) :
    end_pos pos (free_first name l) = end_pos pos l := by
  induction l generalizing pos with
  | nil => rfl
  | cons b bs ih =>
    simp only [free_first]
    split
    · rfl
    · simp only [end_pos]; rw [ih]

theorem free_first_splice {name : String} {xs ys : List MemoryBlock}
    {a : MemoryBlock}
    (ha : a.is_free = false) (han : a.process_name = some name)
    (hxs : ∀ x ∈ xs, ¬(x.is_free = false ∧ x.process_name = some name)) :
    free_first name (xs ++ a :: ys) =
      xs ++ { a with is_free := true, process_name := none } :: ys := by
  induction xs with
  | nil =>
    simp only [List.nil_append, free_first]
    rw [if_pos (by rw [ha, han]; simp)]
  | cons x xs ih =>
    simp only [List.cons_append, free_first, List.append_eq]
    rw [if_neg, ih (fun y hy => hxs y (List.mem_cons_of_mem _ hy))]
    intro hcond
    simp only [Bool.and_eq_true, Bool.not_eq_true', decide_eq_true_eq] at hcond
    exact hxs x (List.mem_cons_self _ _) ⟨hcond.1, hcond.2⟩

/-! ## Lemmas about `_find_best_fit` -/

theorem fbf_mono (size : Int) (bs : List MemoryBlock) :
    ∀ (idx bi : Nat) (bs0 : Int),
      ∃ i s, fbf_aux size bs idx (some (bi, bs0)) = some (i, s) ∧ s ≤ bs0 := by
  induction bs with
  | nil => intro idx bi bs0; exact ⟨bi, bs0, rfl, le_refl _⟩
  | cons x xs ih =>
    intro idx bi bs0
    simp only [fbf_aux, fbf_step]
    split
    · obtain ⟨i, s, hi, hs⟩ := ih (idx + 1) idx x.size
      refine ⟨i, s, hi, le_of_lt (lt_of_le_of_lt hs ?_)⟩
      rename_i hcond
      simp only [Bool.and_eq_true, decide_eq_true_eq] at hcond
      exact hcond.2
    · exact ih (idx + 1) bi bs0

theorem fbf_min_cand (size : Int) (bs : List MemoryBlock) :
    ∀ (idx : Nat) (best : Option (Nat × Int)) (j : Nat) (b : MemoryBlock),
      bs.get? j = some b → b.is_free = true → size ≤ b.size →
      ∃ i s, fbf_aux size bs idx best = some (i, s) ∧ s ≤ b.size := by
  induction bs with
  | nil => intro idx best j b hj; simp at hj
  | cons x xs ih =>
    intro idx best j b hj hbf hbs
    cases j with
    | zero =>
      simp only [List.get?_cons_zero, Option.some.injEq] at hj
      subst hj
      simp only [fbf_aux]
      cases best with
      | none =>
        have hstep : fbf_step size idx x none = some (idx, x.size) := by
          simp [fbf_step, hbf, hbs]
        rw [hstep]
        obtain ⟨i, s, hi, hs⟩ := fbf_mono size xs (idx + 1) idx x.size
        exact ⟨i, s, hi, hs⟩
      | some p =>
        obtain ⟨bi, bs0⟩ := p
        by_cases hlt : x.size < bs0
        · have hstep : fbf_step size idx x (some (bi, bs0)) = some (idx, x.size) := by
            simp [fbf_step, hbf, hbs, hlt]
          rw [hstep]
          obtain ⟨i, s, hi, hs⟩ := fbf_mono size xs (idx + 1) idx x.size
          exact ⟨i, s, hi, hs⟩
        · have hstep : fbf_step size idx x (some (bi, bs0)) = some (bi, bs0) := by
            simp [fbf_step, hbf, hbs, hlt]
          rw [hstep]
          obtain ⟨i, s, hi, hs⟩ := fbf_mono size xs (idx + 1) bi bs0
          exact ⟨i, s, hi, le_trans hs (by omega)⟩
    | succ j' =>
      simp only [List.get?_cons_succ] at hj
      simp only [fbf_aux]
      exact ih (idx + 1) _ j' b hj hbf hbs

theorem fbf_none_of_no_cand (size : Int) (bs : List MemoryBlock) :
    ∀ idx, (∀ b ∈ bs, b.is_free = true → b.size < size) →
      fbf_aux size bs idx none = none := by
  induction bs with
  | nil => intro idx h; rfl
  | cons x xs ih =>
    intro idx h
    simp only [fbf_aux]
    have hstep : fbf_step size idx x none = none := by
      simp only [fbf_step]
      rw [if_neg]
      intro hcond
      simp only [Bool.and_eq_true, decide_eq_true_eq] at hcond
      exact absurd (h x (by simp) hcond.1) (by omega)
    rw [hstep]
    exact ih (idx + 1) (fun b hb => h b (by simp [hb]))

theorem fbf_aux_char (size : Int) (bs : List MemoryBlock) :
    ∀ (idx : Nat) (best : Option (Nat × Int)) (i : Nat) (s : Int),
    fbf_aux size bs idx best = some (i, s) →
    (best = some (i, s) ∧
      ∀ j c, bs.get? j = some c → c.is_free = true → size ≤ c.size →
        ¬ c.size < s)
    ∨ (∃ j b, bs.get? j = some b ∧ i = idx + j ∧ b.is_free = true ∧
        size ≤ b.size ∧ s = b.size ∧
        (∀ k c, bs.get? k = some c → c.is_free = true → size ≤ c.size →
          ¬ c.size < s) ∧
        (∀ k c, bs.get? k = some c → c.is_free = true → size ≤ c.size →
          c.size = s → j ≤ k) ∧
        (∀ bi bs0, best = some (bi, bs0) → s < bs0)) := by
  induction bs with
  | nil =>
    intro idx best i s h
    left
    refine ⟨h, ?_⟩
    intro j c hj
    simp at hj
  | cons x xs ih =>
    intro idx best i s h
    simp only [fbf_aux] at h
    rcases ih (idx + 1) (fbf_step size idx x best) i s h with
      ⟨hbest, hmin⟩ | ⟨j, b, hj, hi, hbf, hbs, hs, hmin, htie, hlt⟩
    · -- the step output survived the rest of the scan
      cases hb : best with
      | none =>
        by_cases hcond : (x.is_free && decide (size ≤ x.size)) = true
        · -- x became the new best and survived
          have hstep : fbf_step size idx x none = some (idx, x.size) := by
            simp [fbf_step, hcond]
          rw [hb, hstep] at hbest
          injection hbest with hbest
          injection hbest with h1 h2
          subst h1
          subst h2
          simp only [Bool.and_eq_true, decide_eq_true_eq] at hcond
          right
          refine ⟨0, x, rfl, by omega, hcond.1, hcond.2, rfl, ?_, ?_, ?_⟩
          · intro k c hk hcf hcs
            cases k with
            | zero =>
              simp only [List.get?_cons_zero, Option.some.injEq] at hk
              subst hk
              omega
            | succ k' =>
              simp only [List.get?_cons_succ] at hk
              exact hmin k' c hk hcf hcs
          · intro k c _ _ _ _
            omega
          · intro bi bs0 hcontra
            cases hcontra
        · have hstep : fbf_step size idx x none = none := by
            simp only [fbf_step]
            rw [if_neg hcond]
          rw [hb, hstep] at hbest
          cases hbest
      | some p =>
        obtain ⟨bi, bs0⟩ := p
        by_cases hcond :
            (x.is_free && decide (size ≤ x.size) && decide (x.size < bs0)) = true
        · have hstep : fbf_step size idx x (some (bi, bs0)) = some (idx, x.size) := by
            simp only [fbf_step]
            rw [if_pos hcond]
          rw [hb, hstep] at hbest
          injection hbest with hbest
          injection hbest with h1 h2
          subst h1
          subst h2
          simp only [Bool.and_eq_true, decide_eq_true_eq] at hcond
          right
          refine ⟨0, x, rfl, by omega, hcond.1.1, hcond.1.2, rfl, ?_, ?_, ?_⟩
          · intro k c hk hcf hcs
            cases k with
            | zero =>
              simp only [List.get?_cons_zero, Option.some.injEq] at hk
              subst hk
              omega
            | succ k' =>
              simp only [List.get?_cons_succ] at hk
              exact hmin k' c hk hcf hcs
          · intro k c _ _ _ _
            omega
          · intro bi' bs0' hb'
            injection hb' with hb'
            injection hb' with h1 h2
            subst h2
            exact hcond.2
        · have hstep : fbf_step size idx x (some (bi, bs0)) = some (bi, bs0) := by
            simp only [fbf_step]
            rw [if_neg hcond]
          rw [hb, hstep] at hbest
          injection hbest with hbest
          injection hbest with h1 h2
          subst h1
          subst h2
          left
          refine ⟨rfl, ?_⟩
          intro k c hk hcf hcs
          cases k with
          | zero =>
            simp only [List.get?_cons_zero, Option.some.injEq] at hk
            subst hk
            intro hlt'
            exact hcond (by simp [hcf, hcs, hlt'])
          | succ k' =>
            simp only [List.get?_cons_succ] at hk
            exact hmin k' c hk hcf hcs
    · -- the best fit came from the tail of the list
      have hxgt : x.is_free = true → size ≤ x.size → s < x.size := by
        intro hxf hxs
        cases hb : best with
        | none =>
          have hstep : fbf_step size idx x none = some (idx, x.size) := by
            simp [fbf_step, hxf, hxs]
          exact hlt idx x.size (by rw [← hstep, hb])
        | some p =>
          obtain ⟨bi, bs0⟩ := p
          by_cases hxlt : x.size < bs0
          · have hstep : fbf_step size idx x (some (bi, bs0)) = some (idx, x.size) := by
              simp [fbf_step, hxf, hxs, hxlt]
            exact hlt idx x.size (by rw [← hstep, hb])
          · have hstep : fbf_step size idx x (some (bi, bs0)) = some (bi, bs0) := by
              simp [fbf_step, hxf, hxs, hxlt]
            have := hlt bi bs0 (by rw [← hstep, hb])
            omega
      right
      refine ⟨j + 1, b, by simpa using hj, by omega, hbf, hbs, hs, ?_, ?_, ?_⟩
      · intro k c hk hcf hcs
        cases k with
        | zero =>
          simp only [List.get?_cons_zero, Option.some.injEq] at hk
          subst hk
          have := hxgt hcf hcs
          omega
        | succ k' =>
          simp only [List.get?_cons_succ] at hk
          exact hmin k' c hk hcf hcs
      · intro k c hk hcf hcs hceq
        cases k with
        | zero =>
          simp only [List.get?_cons_zero, Option.some.injEq] at hk
          subst hk
          have := hxgt hcf hcs
          omega
        | succ k' =>
          simp only [List.get?_cons_succ] at hk
          exact Nat.succ_le_succ (htie k' c hk hcf hcs hceq)
      · intro bi bs0 hb
        rw [hb] at hlt
        by_cases hxcond :
            (x.is_free && decide (size ≤ x.size) && decide (x.size < bs0)) = true
        · have hstep : fbf_step size idx x (some (bi, bs0)) = some (idx, x.size) := by
            simp only [fbf_step]
            rw [if_pos hxcond]
          have hsx := hlt idx x.size hstep
          simp only [Bool.and_eq_true, decide_eq_true_eq] at hxcond
          omega
        · have hstep : fbf_step size idx x (some (bi, bs0)) = some (bi, bs0) := by
            simp only [fbf_step]
            rw [if_neg hxcond]
          exact hlt bi bs0 hstep

theorem find_best_fit_some {blocks : List MemoryBlock} {size : Int} {i : Nat}
    (h : find_best_fit blocks size = some i) :
    ∃ b, blocks.get? i = some b ∧ b.is_free = true ∧ size ≤ b.size ∧
      (∀ j c, blocks.get? j = some c → c.is_free = true → size ≤ c.size →
        b.size ≤ c.size) ∧
      (∀ j c, blocks.get? j = some c → c.is_free = true → size ≤ c.size →
        c.size = b.size → i ≤ j) := by
  simp only [find_best_fit, Option.map_eq_some'] at h
  obtain ⟨⟨i', s⟩, haux, hi⟩ := h
  simp only at hi
  subst hi
  rcases fbf_aux_char size blocks 0 none i' s haux with ⟨hbest, _⟩ | hr
  · cases hbest
  · obtain ⟨j, b, hj, hij, hbf, hbs, hs, hmin, htie, _⟩ := hr
    have hji : j = i' := by omega
    subst hji
    refine ⟨b, hj, hbf, hbs, ?_, ?_⟩
    · intro k c hk hcf hcs
      have := hmin k c hk hcf hcs
      omega
    · intro k c hk hcf hcs hceq
      exact htie k c hk hcf hcs (by omega)

theorem find_best_fit_none {blocks : List MemoryBlock} {size : Int}
    (h : ∀ b ∈ blocks, b.is_free = true → b.size < size) :
    find_best_fit blocks size = none := by
  simp only [find_best_fit]
  rw [fbf_none_of_no_cand size blocks 0 h]
  rfl

theorem find_best_fit_isSome {blocks : List MemoryBlock} {size : Int}
    {j : Nat} {b : MemoryBlock}
    (hj : blocks.get? j = some b) (hbf : b.is_free = true)
    (hbs : size ≤ b.size) :
    ∃ i, find_best_fit blocks size = some i := by
  obtain ⟨i, s, hi, _⟩ := fbf_min_cand size blocks 0 none j b hj hbf hbs
  exact ⟨i, by simp [find_best_fit, hi]⟩

theorem list_splice_at {l : List MemoryBlock} {i : Nat} {b : MemoryBlock}
    (h : l.get? i = some b) :
    l = l.take i ++ b :: l.drop (i + 1) := by
  induction l generalizing i with
  | nil => simp at h
  | cons x xs ih =>
    cases i with
    | zero =>
      simp only [List.get?_cons_zero, Option.some.injEq] at h
      subst h
      simp
    | succ i' =>
      simp only [List.get?_cons_succ] at h
      simp only [List.take_succ_cons, List.drop_succ_cons, List.cons_append]
      rw [← ih h]

/-! ## Result-shape lemmas for the operations -/

theorem allocate_dup_shape (m : Manager) (n : String) (size : Int) (r : Bool)
    (hdup : map_has_key m.process_map n = true) :
    allocate m n size r = (m, false, "already allocated", none) := by
  simp only [allocate, hdup, if_true]

theorem allocate_nofit_shape (m : Manager) (n : String) (size : Int) (r : Bool)
    (hdup : map_has_key m.process_map n = false)
    (hfbf : find_best_fit m.blocks
      (if r then round_to_power_of_2 size else size) = none) :
    allocate m n size r =
      (m, false, "No suitable free block found. Try compaction.", none) := by
  simp only [allocate, hdup, Bool.false_eq_true, if_false, hfbf]

theorem allocate_success_shape (m : Manager) (n : String) (size : Int) (r : Bool)
    (hdup : map_has_key m.process_map n = false)
    {i : Nat} {b : MemoryBlock}
    (hfbf : find_best_fit m.blocks
      (if r then round_to_power_of_2 size else size) = some i)
    (hget : m.blocks.get? i = some b) :
    ((if r then round_to_power_of_2 size else size) < b.size →
      allocate m n size r =
        ({ m with
            blocks := m.blocks.take i ++
              [⟨b.start, (if r then round_to_power_of_2 size else size), false, some n⟩,
               ⟨b.start + (if r then round_to_power_of_2 size else size),
                b.size - (if r then round_to_power_of_2 size else size), true, none⟩] ++
              m.blocks.drop (i + 1),
            process_map := m.process_map ++
              [(n, ⟨b.start, (if r then round_to_power_of_2 size else size),
                false, some n⟩)] },
          true, "allocated", some b.start)) ∧
    (¬ (if r then round_to_power_of_2 size else size) < b.size →
      allocate m n size r =
        ({ m with
            blocks := m.blocks.take i ++
              [{ b with is_free := false, process_name := some n }] ++
              m.blocks.drop (i + 1),
            process_map := m.process_map ++
              [(n, { b with is_free := false, process_name := some n })] },
          true, "allocated", some b.start)) := by
  constructor
  · intro hlt
    simp only [allocate, hdup, Bool.false_eq_true, if_false, hfbf, hget, if_pos hlt]
  · intro hge
    simp only [allocate, hdup, Bool.false_eq_true, if_false, hfbf, hget, if_neg hge]

theorem deallocate_notfound_shape (m : Manager) (n : String)
    (h : map_has_key m.process_map n = false) :
    deallocate m n = (m, false, "not found") := by
  simp only [deallocate, h, Bool.false_eq_true, if_false]

theorem deallocate_found_shape (m : Manager) (n : String)
    (h : map_has_key m.process_map n = true) :
    deallocate m n =
      ({ m with
          blocks := merge_free_blocks (free_first n m.blocks),
          process_map := m.process_map.filter (fun p => decide (p.1 ≠ n)) },
        true, "deallocated") := by
  simp only [deallocate, h, if_true]

theorem compact_empty_shape (m : Manager)
    (h : m.blocks.filter (fun b => !b.is_free) = []) :
    compact m = (m, false, "No allocated blocks to compact", 0) := by
  simp only [compact, h, List.isEmpty_nil, if_true]

theorem compact_success_shape (m : Manager)
    (h : m.blocks.filter (fun b => !b.is_free) ≠ []) :
    compact m =
      ({ m with
          blocks :=
            (if 0 < m.total_memory - sum_sizes (m.blocks.filter (fun b => !b.is_free)) then
              place_blocks 0 (m.blocks.filter (fun b => !b.is_free)) ++
                [⟨sum_sizes (m.blocks.filter (fun b => !b.is_free)),
                  m.total_memory - sum_sizes (m.blocks.filter (fun b => !b.is_free)),
                  true, none⟩]
            else place_blocks 0 (m.blocks.filter (fun b => !b.is_free))),
          process_map := register_blocks m.process_map
            (place_blocks 0 (m.blocks.filter (fun b => !b.is_free))) },
        true, "Memory compacted successfully",
        (m.blocks.filter (fun b => !b.is_free)).length) := by
  have h2 : (m.blocks.filter (fun b => !b.is_free)).isEmpty = false := by
    cases hx : m.blocks.filter (fun b => !b.is_free) with
    | nil => exact absurd hx h
    | cons c cs => rfl
  simp only [compact, h2, Bool.false_eq_true, if_false]

/-! ## Layout preservation -/

theorem round_pos (size : Int) : 0 < round_to_power_of_2 size := by
  simp only [round_to_power_of_2]
  split
  · omega
  · positivity

theorem layout_replace {total : Int} {xs ys : List MemoryBlock}
    {b A : MemoryBlock}
    (hch : chain_ok 0 (xs ++ b :: ys) = true)
    (hend : end_pos 0 (xs ++ b :: ys) = total)
    (hst : A.start = b.start) (hsz : A.size = b.size) :
    chain_ok 0 (xs ++ A :: ys) = true ∧ end_pos 0 (xs ++ A :: ys) = total := by
  rw [chain_ok_append, Bool.and_eq_true] at hch
  obtain ⟨hxs, hbc⟩ := hch
  obtain ⟨hb1, hb2, hb3⟩ := chain_ok_cons.mp hbc
  rw [end_pos_append] at hend
  constructor
  · rw [chain_ok_append, Bool.and_eq_true]
    refine ⟨hxs, chain_ok_cons.mpr ⟨by omega, by omega, ?_⟩⟩
    rw [hst, hsz]
    exact hb3
  · rw [end_pos_append]
    show end_pos (A.start + A.size) ys = total
    rw [hst, hsz]
    exact hend

theorem layout_splice2 {total : Int} {xs ys : List MemoryBlock}
    {b A R : MemoryBlock}
    (hch : chain_ok 0 (xs ++ b :: ys) = true)
    (hend : end_pos 0 (xs ++ b :: ys) = total)
    (hA : A.start = b.start) (hAsz : 0 < A.size)
    (hR : R.start = b.start + A.size) (hRsz : R.size = b.size - A.size)
    (hRpos : 0 < R.size) :
    chain_ok 0 (xs ++ A :: R :: ys) = true ∧
      end_pos 0 (xs ++ A :: R :: ys) = total := by
  rw [chain_ok_append, Bool.and_eq_true] at hch
  obtain ⟨hxs, hbc⟩ := hch
  obtain ⟨hb1, hb2, hb3⟩ := chain_ok_cons.mp hbc
  rw [end_pos_append] at hend
  constructor
  · rw [chain_ok_append, Bool.and_eq_true]
    refine ⟨hxs, chain_ok_cons.mpr ⟨by omega, hAsz,
      chain_ok_cons.mpr ⟨by omega, hRpos, ?_⟩⟩⟩
    have : R.start + R.size = b.start + b.size := by omega
    rw [this]
    exact hb3
  · rw [end_pos_append]
    show end_pos (R.start + R.size) ys = total
    have : R.start + R.size = b.start + b.size := by omega
    rw [this]
    exact hend

theorem good_state_allocate (m : Manager) (n : String) (size : Int) (r : Bool)
    (hg : good_state m = true) (hop : (r || decide (0 < size)) = true) :
    good_state (allocate m n size r).1 = true := by
  simp only [good_state, layout_ok, blocks_partition, Bool.and_eq_true,
    decide_eq_true_eq] at hg
  obtain ⟨htot, ⟨hch, hend⟩, hadj⟩ := hg
  cases hdup : map_has_key m.process_map n with
  | true => rw [allocate_dup_shape m n size r hdup]; simp [good_state,
      layout_ok, blocks_partition, htot, hch, hend, hadj]
  | false =>
    have hpos : 0 < (if r then round_to_power_of_2 size else size) := by
      cases r with
      | true => simpa using round_pos size
      | false => simpa using hop
    cases hfbf : find_best_fit m.blocks (if r then round_to_power_of_2 size else size) with
    | none => rw [allocate_nofit_shape m n size r hdup hfbf]; simp [good_state,
        layout_ok, blocks_partition, htot, hch, hend, hadj]
    | some i =>
      obtain ⟨b, hget, hbf, hbs, _, _⟩ := find_best_fit_some hfbf
      have hsplit := list_splice_at hget
      obtain ⟨hshape1, hshape2⟩ := allocate_success_shape m n size r hdup hfbf hget
      by_cases hlt : (if r then round_to_power_of_2 size else size) < b.size
      · rw [hshape1 hlt]
        have hch' : chain_ok 0 (m.blocks.take i ++ b :: m.blocks.drop (i + 1)) = true := by
          rw [← hsplit]; exact hch
        have hend' : end_pos 0 (m.blocks.take i ++ b :: m.blocks.drop (i + 1)) = m.total_memory := by
          rw [← hsplit]; exact hend
        have hadj' : no_adj_free (m.blocks.take i ++ b :: m.blocks.drop (i + 1)) = true := by
          rw [← hsplit]; exact hadj
        obtain ⟨hc2, he2⟩ := layout_splice2 (A := ⟨b.start,
            (if r then round_to_power_of_2 size else size), false, some n⟩)
          (R := ⟨b.start + (if r then round_to_power_of_2 size else size),
            b.size - (if r then round_to_power_of_2 size else size), true, none⟩)
          hch' hend' rfl hpos rfl rfl (by
            show (0 : Int) < b.size - (if r then round_to_power_of_2 size else size)
            omega)
        simp only [good_state, layout_ok, blocks_partition, Bool.and_eq_true,
          decide_eq_true_eq]
        refine ⟨htot, ⟨?_, ?_⟩, ?_⟩
        · simpa using hc2
        · simpa using he2
        · have := no_adj_replace2 (A := ⟨b.start,
            (if r then round_to_power_of_2 size else size), false, some n⟩)
            (R := ⟨b.start + (if r then round_to_power_of_2 size else size),
              b.size - (if r then round_to_power_of_2 size else size), true, none⟩)
            rfl hbf hadj'
          simpa using this
      · rw [hshape2 hlt]
        have hch' : chain_ok 0 (m.blocks.take i ++ b :: m.blocks.drop (i + 1)) = true := by
          rw [← hsplit]; exact hch
        have hend' : end_pos 0 (m.blocks.take i ++ b :: m.blocks.drop (i + 1)) = m.total_memory := by
          rw [← hsplit]; exact hend
        have hadj' : no_adj_free (m.blocks.take i ++ b :: m.blocks.drop (i + 1)) = true := by
          rw [← hsplit]; exact hadj
        obtain ⟨hc2, he2⟩ := layout_replace hch' hend'
          (A := { b with is_free := false, process_name := some n }) rfl rfl
        simp only [good_state, layout_ok, blocks_partition, Bool.and_eq_true,
          decide_eq_true_eq]
        refine ⟨htot, ⟨?_, ?_⟩, ?_⟩
        · simpa using hc2
        · simpa using he2
        · have := no_adj_replace1
            (A := { b with is_free := false, process_name := some n }) rfl hadj'
          simpa using this

theorem good_state_deallocate (m : Manager) (n : String)
    (hg : good_state m = true) :
    good_state (deallocate m n).1 = true := by
  cases hk : map_has_key m.process_map n with
  | false => rw [deallocate_notfound_shape m n hk]; exact hg
  | true =>
    rw [deallocate_found_shape m n hk]
    simp only [good_state, layout_ok, blocks_partition, Bool.and_eq_true,
      decide_eq_true_eq] at hg ⊢
    obtain ⟨htot, ⟨hch, hend⟩, _⟩ := hg
    have hch1 : chain_ok 0 (free_first n m.blocks) = true := by
      rw [free_first_chain]; exact hch
    obtain ⟨hc2, he2⟩ := merge_chain _ hch1
    refine ⟨htot, ⟨hc2, ?_⟩, no_adj_free_merge _⟩
    rw [he2, free_first_end]
    exact hend

theorem place_blocks_chain {l : List MemoryBlock} (pos : Int)
    (h : ∀ b ∈ l, 0 < b.size) :
    chain_ok pos (place_blocks pos l) = true := by
  induction l generalizing pos with
  | nil => rfl
  | cons b bs ih =>
    simp only [place_blocks]
    refine chain_ok_cons.mpr ⟨rfl, h b (by simp), ?_⟩
    exact ih _ (fun c hc => h c (by simp [hc]))

theorem place_blocks_end (l : List MemoryBlock) (pos : Int) :
    end_pos pos (place_blocks pos l) = pos + sum_sizes l := by
  induction l generalizing pos with
  | nil => simp [place_blocks, end_pos, sum_sizes]
  | cons b bs ih =>
    simp only [place_blocks, end_pos, sum_sizes, List.map_cons, List.sum_cons]
    show end_pos (pos + b.size) (place_blocks (pos + b.size) bs) = _
    rw [ih]
    simp [sum_sizes]
    ring

theorem place_blocks_alloc (l : List MemoryBlock) (pos : Int) :
    ∀ b ∈ place_blocks pos l, b.is_free = false := by
  induction l generalizing pos with
  | nil => intro b hb; simp [place_blocks] at hb
  | cons x xs ih =>
    intro b hb
    simp only [place_blocks, List.mem_cons] at hb
    rcases hb with rfl | hb
    · rfl
    · exact ih _ b hb

theorem sum_sizes_filter_le {l : List MemoryBlock}
    (h : ∀ b ∈ l, 0 ≤ b.size) (p : MemoryBlock → Bool) :
    sum_sizes (l.filter p) ≤ sum_sizes l := by
  induction l with
  | nil => simp [sum_sizes]
  | cons x xs ih =>
    have hx := h x (by simp)
    have ihx := ih (fun b hb => h b (by simp [hb]))
    simp only [List.filter_cons]
    split
    · simp only [sum_sizes, List.map_cons, List.sum_cons] at ihx ⊢
      omega
    · simp only [sum_sizes, List.map_cons, List.sum_cons]
      have : sum_sizes (List.filter p xs) ≤ sum_sizes xs := ihx
      simp only [sum_sizes] at this
      omega

theorem no_adj_alloc_append {l t : List MemoryBlock}
    (hl : ∀ b ∈ l, b.is_free = false) (ht : no_adj_free t = true) :
    no_adj_free (l ++ t) = true := by
  induction l with
  | nil => exact ht
  | cons x xs ih =>
    have hrest := ih (fun b hb => hl b (by simp [hb]))
    have hx := hl x (by simp)
    cases hxt : xs ++ t with
    | nil => rw [List.cons_append, hxt]; rfl
    | cons y ys =>
      rw [List.cons_append, hxt]
      refine no_adj_free_cons.mpr ⟨by rw [hx]; rfl, ?_⟩
      rw [← hxt]
      exact hrest

theorem good_state_compact (m : Manager) (hg : good_state m = true) :
    good_state (compact m).1 = true := by
  cases hemp : m.blocks.filter (fun b => !b.is_free) with
  | nil => rw [compact_empty_shape m hemp]; exact hg
  | cons c cs =>
    rw [compact_success_shape m (by rw [hemp]; exact List.cons_ne_nil c cs)]
    simp only [good_state, layout_ok, blocks_partition, Bool.and_eq_true,
      decide_eq_true_eq] at hg ⊢
    obtain ⟨htot, ⟨hch, hend⟩, _⟩ := hg
    have hsizes : ∀ b ∈ m.blocks.filter (fun b => !b.is_free), 0 < b.size :=
      fun b hb => chain_ok_sizes_pos hch b (List.mem_of_mem_filter hb)
    have hsum_le : sum_sizes (m.blocks.filter (fun b => !b.is_free)) ≤
        m.total_memory := by
      have htotsum : end_pos 0 m.blocks = 0 + sum_sizes m.blocks :=
        end_pos_eq_add_sum hch
      have := sum_sizes_filter_le
        (fun b hb => le_of_lt (chain_ok_sizes_pos hch b hb))
        (fun b => !b.is_free)
      omega
    have hpl_chain : chain_ok 0
        (place_blocks 0 (m.blocks.filter (fun b => !b.is_free))) = true :=
      place_blocks_chain 0 hsizes
    have hpl_end : end_pos 0
        (place_blocks 0 (m.blocks.filter (fun b => !b.is_free))) =
        sum_sizes (m.blocks.filter (fun b => !b.is_free)) := by
      rw [place_blocks_end]; ring
    have hpl_alloc := place_blocks_alloc (m.blocks.filter (fun b => !b.is_free)) 0
    refine ⟨htot, ⟨?_, ?_⟩, ?_⟩
    · split
      · rename_i hfs
        rw [chain_ok_append, Bool.and_eq_true]
        refine ⟨hpl_chain, chain_ok_cons.mpr ⟨by rw [hpl_end], ?_, rfl⟩⟩
        show 0 < m.total_memory - sum_sizes (m.blocks.filter (fun b => !b.is_free))
        exact hfs
      · exact hpl_chain
    · split
      · rw [end_pos_append, hpl_end]
        show sum_sizes (m.blocks.filter (fun b => !b.is_free)) +
          (m.total_memory - sum_sizes (m.blocks.filter (fun b => !b.is_free))) =
          m.total_memory
        ring
      · rename_i hfs
        rw [hpl_end]
        omega
    · split
      · refine no_adj_alloc_append hpl_alloc ?_
        rfl
      · have := no_adj_alloc_append (t := []) hpl_alloc rfl
        simpa using this

theorem good_state_reset (m : Manager) (c : Option Int)
    (hg : good_state m = true)
    (hop : (match c with | none => true | some v => decide (0 ≤ v)) = true) :
    good_state (reset m c) = true := by
  have htot : 0 < m.total_memory := by
    simp only [good_state, Bool.and_eq_true, decide_eq_true_eq] at hg
    exact hg.1
  have key : ∀ t : Int, 0 < t → good_state ⟨t, init_blocks t, []⟩ = true := by
    intro t ht
    simp [good_state, layout_ok, blocks_partition, init_blocks, chain_ok,
      end_pos, no_adj_free, ht]
  cases c with
  | none => exact key _ htot
  | some v =>
    have hv : 0 ≤ v := by simpa using hop
    by_cases h0 : v = 0
    · simp only [reset, h0, if_true]
      exact key _ htot
    · simp only [reset, h0, if_false]
      exact key _ (by omega)

theorem good_state_apply_op (m : Manager) (o : Op)
    (hg : good_state m = true) (hop : op_ok o = true) :
    good_state (apply_op m o) = true := by
  cases o with
  | alloc n s r => exact good_state_allocate m n s r hg (by simpa [op_ok] using hop)
  | dealloc n => exact good_state_deallocate m n hg
  | compactAll => exact good_state_compact m hg
  | resetTo c => exact good_state_reset m c hg (by simpa [op_ok] using hop)

theorem good_state_run_ops (ops : List Op) :
    ∀ m : Manager, good_state m = true → ops.all op_ok = true →
    good_state (run_ops m ops) = true := by
  induction ops with
  | nil => intro m hg _; exact hg
  | cons o os ih =>
    intro m hg hall
    simp only [List.all_cons, Bool.and_eq_true] at hall
    exact ih (apply_op m o) (good_state_apply_op m o hg hall.1) hall.2

theorem good_state_mk (total : Int) (h : 0 < total) :
    good_state (mk_manager total) = true := by
  simp [good_state, layout_ok, blocks_partition, mk_manager, init_blocks,
    chain_ok, end_pos, no_adj_free, h]

/-! ## Registry consistency -/

theorem registry_entry_ok_iff (m : Manager) (p : String × MemoryBlock) :
    (m.blocks.any (fun b => decide (b = p.2)) && !p.2.is_free &&
      decide (p.2.process_name = some p.1)) = true ↔
    (p.2 ∈ m.blocks ∧ p.2.is_free = false ∧ p.2.process_name = some p.1) := by
  simp [List.any_eq_true, Bool.and_eq_true, Bool.not_eq_true', and_assoc]

theorem registry_block_ok_iff (m : Manager) (b : MemoryBlock) :
    ((if b.is_free then decide (b.process_name = none)
      else match b.process_name with
        | some n => map_has_key m.process_map n
        | none => false) = true) ↔
    ((b.is_free = true → b.process_name = none) ∧
     (b.is_free = false → ∃ n, b.process_name = some n ∧
        map_has_key m.process_map n = true)) := by
  cases hf : b.is_free with
  | true => simp [hf]
  | false =>
    cases hn : b.process_name with
    | none => simp [hf, hn]
    | some n => simp [hf, hn]

theorem registry_consistent_iff (m : Manager) :
    registry_consistent m = true ↔
      ((owners m.blocks).Nodup ∧ (map_keys m.process_map).Nodup ∧
      (∀ p ∈ m.process_map, p.2 ∈ m.blocks ∧ p.2.is_free = false ∧
        p.2.process_name = some p.1) ∧
      (∀ b ∈ m.blocks, (b.is_free = true → b.process_name = none) ∧
        (b.is_free = false → ∃ n, b.process_name = some n ∧
          map_has_key m.process_map n = true))) := by
  simp only [registry_consistent, Bool.and_eq_true, decide_eq_true_eq,
    List.all_eq_true, registry_entry_ok_iff, registry_block_ok_iff, and_assoc]
  simp [List.any_eq_true, Bool.not_eq_true']

theorem owners_append (xs ys : List MemoryBlock) :
    owners (xs ++ ys) = owners xs ++ owners ys := by
  simp [owners, List.filterMap_append]

theorem mem_owners {l : List MemoryBlock} {b : MemoryBlock} {n : String}
    (hb : b ∈ l) (hf : b.is_free = false) (hn : b.process_name = some n) :
    n ∈ owners l := by
  simp only [owners, List.mem_filterMap]
  exact ⟨b, hb, by simp [hf, hn]⟩

theorem map_has_key_iff {pm : List (String × MemoryBlock)} {k : String} :
    map_has_key pm k = true ↔ k ∈ map_keys pm := by
  simp [map_has_key, map_keys, List.any_eq_true]

theorem owners_cons_free {b : MemoryBlock} {l : List MemoryBlock}
    (h : b.is_free = true) : owners (b :: l) = owners l := by
  simp [owners, List.filterMap_cons, h]

theorem owners_cons_alloc {b : MemoryBlock} {l : List MemoryBlock} {n : String}
    (h : b.is_free = false) (hn : b.process_name = some n) :
    owners (b :: l) = n :: owners l := by
  simp [owners, List.filterMap_cons, h, hn]

theorem owners_mem_inv {l : List MemoryBlock} {n : String}
    (h : n ∈ owners l) :
    ∃ b ∈ l, b.is_free = false ∧ b.process_name = some n := by
  simp only [owners, List.mem_filterMap] at h
  obtain ⟨b, hb, hcond⟩ := h
  refine ⟨b, hb, ?_⟩
  by_cases hf : b.is_free
  · simp [hf] at hcond
  · simp only [hf, if_false] at hcond
    exact ⟨Bool.not_eq_true _ ▸ by simpa using hf, hcond⟩

theorem map_has_key_append (pm q : List (String × MemoryBlock)) (k : String) :
    map_has_key (pm ++ q) k = (map_has_key pm k || map_has_key q k) := by
  simp [map_has_key, List.any_append]

theorem map_has_key_false_not_mem {pm : List (String × MemoryBlock)}
    {k : String} (h : map_has_key pm k = false) : k ∉ map_keys pm := by
  intro hk
  rw [← map_has_key_iff] at hk
  rw [h] at hk
  cases hk

theorem map_keys_append (pm q : List (String × MemoryBlock)) :
    map_keys (pm ++ q) = map_keys pm ++ map_keys q := by
  simp [map_keys]

theorem owners_not_mem_of_no_key {m : Manager} {n : String}
    (hrc : registry_consistent m = true)
    (h : map_has_key m.process_map n = false) : n ∉ owners m.blocks := by
  intro hn
  obtain ⟨b, hb, hf, hpn⟩ := owners_mem_inv hn
  obtain ⟨_, _, _, hblocks⟩ := (registry_consistent_iff m).mp hrc
  obtain ⟨n', hn', hk'⟩ := (hblocks b hb).2 hf
  rw [hpn] at hn'
  injection hn' with hn'
  subst hn'
  rw [h] at hk'
  cases hk'

theorem rc_allocate (m : Manager) (n : String) (size : Int) (r : Bool)
    (hrc : registry_consistent m = true) :
    registry_consistent (allocate m n size r).1 = true := by
  cases hdup : map_has_key m.process_map n with
  | true => rw [allocate_dup_shape m n size r hdup]; exact hrc
  | false =>
    cases hfbf : find_best_fit m.blocks
        (if r then round_to_power_of_2 size else size) with
    | none => rw [allocate_nofit_shape m n size r hdup hfbf]; exact hrc
    | some i =>
      obtain ⟨b, hget, hbf, hbs, _, _⟩ := find_best_fit_some hfbf
      have hsplit := list_splice_at hget
      have hbmem : b ∈ m.blocks := List.get?_mem hget
      obtain ⟨hnd_o, hnd_k, hentries, hblocks⟩ :=
        (registry_consistent_iff m).mp hrc
      have hnoown : n ∉ owners m.blocks := owners_not_mem_of_no_key hrc hdup
      have hnokey : n ∉ map_keys m.process_map := map_has_key_false_not_mem hdup
      have howners_old : owners m.blocks =
          owners (m.blocks.take i) ++ owners (m.blocks.drop (i + 1)) := by
        conv_lhs => rw [hsplit]
        rw [owners_append, owners_cons_free hbf]
      obtain ⟨hshape1, hshape2⟩ := allocate_success_shape m n size r hdup hfbf hget
      by_cases hlt : (if r then round_to_power_of_2 size else size) < b.size
      · rw [hshape1 hlt]
        rw [registry_consistent_iff]
        dsimp only
        simp only [List.append_assoc, List.cons_append, List.nil_append]
        refine ⟨?_, ?_, ?_, ?_⟩
        · rw [owners_append, owners_cons_alloc rfl rfl, owners_cons_free rfl]
          rw [List.nodup_middle, List.nodup_cons, ← howners_old]
          exact ⟨hnoown, hnd_o⟩
        · rw [map_keys_append]
          show (map_keys m.process_map ++ [n]).Nodup
          rw [List.nodup_middle, List.nodup_cons]
          exact ⟨by simpa using hnokey, by simpa using hnd_k⟩
        · intro p hp
          rcases List.mem_append.mp hp with hp | hp
          · obtain ⟨hpm, hpf, hpn⟩ := hentries p hp
            refine ⟨?_, hpf, hpn⟩
            rw [hsplit] at hpm
            have hpb : p.2 ≠ b := by
              intro he
              rw [he] at hpf
              rw [hpf] at hbf
              cases hbf
            simp only [List.mem_append, List.mem_cons] at hpm ⊢
            rcases hpm with h1 | h1 | h1
            · exact Or.inl h1
            · exact absurd h1 hpb
            · exact Or.inr (Or.inr (Or.inr h1))
          · simp only [List.mem_singleton] at hp
            subst hp
            refine ⟨?_, rfl, rfl⟩
            simp [List.mem_append, List.mem_cons]
        · intro x hx
          simp only [List.mem_append, List.mem_cons] at hx
          have hkeymono : ∀ k, map_has_key m.process_map k = true →
              map_has_key (m.process_map ++
                [(n, (⟨b.start, (if r then round_to_power_of_2 size else size),
                  false, some n⟩ : MemoryBlock))]) k = true := by
            intro k hk
            rw [map_has_key_append, hk]
            rfl
          rcases hx with h1 | h1 | h1 | h1
          · have hxm : x ∈ m.blocks := List.take_subset _ _ h1
            refine ⟨(hblocks x hxm).1, ?_⟩
            intro hxf
            obtain ⟨n', hn', hk'⟩ := (hblocks x hxm).2 hxf
            exact ⟨n', hn', hkeymono n' hk'⟩
          · subst h1
            refine ⟨by intro h; simp at h, ?_⟩
            intro _
            refine ⟨n, rfl, ?_⟩
            rw [map_has_key_append]
            simp [map_has_key]
          · subst h1
            exact ⟨fun _ => rfl, by intro h; simp at h⟩
          · have hxm : x ∈ m.blocks := List.drop_subset _ _ h1
            refine ⟨(hblocks x hxm).1, ?_⟩
            intro hxf
            obtain ⟨n', hn', hk'⟩ := (hblocks x hxm).2 hxf
            exact ⟨n', hn', hkeymono n' hk'⟩
      · rw [hshape2 hlt]
        rw [registry_consistent_iff]
        dsimp only
        simp only [List.append_assoc, List.cons_append, List.nil_append]
        refine ⟨?_, ?_, ?_, ?_⟩
        · rw [owners_append, owners_cons_alloc rfl rfl]
          rw [List.nodup_middle, List.nodup_cons, ← howners_old]
          exact ⟨hnoown, hnd_o⟩
        · rw [map_keys_append]
          show (map_keys m.process_map ++ [n]).Nodup
          rw [List.nodup_middle, List.nodup_cons]
          exact ⟨by simpa using hnokey, by simpa using hnd_k⟩
        · intro p hp
          rcases List.mem_append.mp hp with hp | hp
          · obtain ⟨hpm, hpf, hpn⟩ := hentries p hp
            refine ⟨?_, hpf, hpn⟩
            rw [hsplit] at hpm
            have hpb : p.2 ≠ b := by
              intro he
              rw [he] at hpf
              rw [hpf] at hbf
              cases hbf
            simp only [List.mem_append, List.mem_cons] at hpm ⊢
            rcases hpm with h1 | h1 | h1
            · exact Or.inl h1
            · exact absurd h1 hpb
            · exact Or.inr (Or.inr h1)
          · simp only [List.mem_singleton] at hp
            subst hp
            refine ⟨?_, rfl, rfl⟩
            simp [List.mem_append, List.mem_cons]
        · intro x hx
          simp only [List.mem_append, List.mem_cons] at hx
          have hkeymono : ∀ k, map_has_key m.process_map k = true →
              map_has_key (m.process_map ++
                [(n, { b with is_free := false, process_name := some n })]) k
                = true := by
            intro k hk
            rw [map_has_key_append, hk]
            rfl
          rcases hx with h1 | h1 | h1
          · have hxm : x ∈ m.blocks := List.take_subset _ _ h1
            refine ⟨(hblocks x hxm).1, ?_⟩
            intro hxf
            obtain ⟨n', hn', hk'⟩ := (hblocks x hxm).2 hxf
            exact ⟨n', hn', hkeymono n' hk'⟩
          · subst h1
            refine ⟨by intro h; simp at h, ?_⟩
            intro _
            refine ⟨n, rfl, ?_⟩
            rw [map_has_key_append]
            simp [map_has_key]
          · have hxm : x ∈ m.blocks := List.drop_subset _ _ h1
            refine ⟨(hblocks x hxm).1, ?_⟩
            intro hxf
            obtain ⟨n', hn', hk'⟩ := (hblocks x hxm).2 hxf
            exact ⟨n', hn', hkeymono n' hk'⟩

theorem owners_cons_none {b : MemoryBlock} {l : List MemoryBlock}
    (hf : b.is_free = false) (hn : b.process_name = none) :
    owners (b :: l) = owners l := by
  simp [owners, List.filterMap_cons, hf, hn]

theorem owners_merge (l : List MemoryBlock) :
    owners (merge_free_blocks l) = owners l := by
  induction l using merge_free_blocks.induct with
  | case1 => rw [merge_nil]
  | case2 b => rw [merge_single]
  | case3 a b rest hfree ih =>
    rw [merge_cons_cons_pos hfree, ih]
    simp only [Bool.and_eq_true] at hfree
    rw [owners_cons_free (by simpa using hfree.1), owners_cons_free hfree.1,
      owners_cons_free hfree.2]
  | case4 a b rest hfree ih =>
    rw [merge_cons_cons_neg hfree]
    cases ha : a.is_free with
    | true => rw [owners_cons_free ha, owners_cons_free ha, ih]
    | false =>
      cases han : a.process_name with
      | none => rw [owners_cons_none ha han, owners_cons_none ha han, ih]
      | some n' =>
        rw [owners_cons_alloc ha han, owners_cons_alloc ha han, ih]

theorem mem_merge_of_alloc {x : MemoryBlock} {l : List MemoryBlock}
    (hf : x.is_free = false) (hx : x ∈ l) : x ∈ merge_free_blocks l := by
  have h1 : x ∈ l.filter (fun b => !b.is_free) :=
    List.mem_filter.mpr ⟨hx, by simp [hf]⟩
  rw [← merge_filter_alloc] at h1
  exact List.mem_of_mem_filter h1

theorem mem_alloc_of_merge {x : MemoryBlock} {l : List MemoryBlock}
    (hf : x.is_free = false) (hx : x ∈ merge_free_blocks l) : x ∈ l := by
  have h1 : x ∈ (merge_free_blocks l).filter (fun b => !b.is_free) :=
    List.mem_filter.mpr ⟨hx, by simp [hf]⟩
  rw [merge_filter_alloc] at h1
  exact List.mem_of_mem_filter h1

theorem map_has_key_exists {pm : List (String × MemoryBlock)} {k : String}
    (h : map_has_key pm k = true) : ∃ p ∈ pm, p.1 = k := by
  simpa [map_has_key, List.any_eq_true] using h

theorem map_has_key_filter {pm : List (String × MemoryBlock)} {k n : String}
    (h : map_has_key pm k = true) (hne : k ≠ n) :
    map_has_key (pm.filter (fun p => decide (p.1 ≠ n))) k = true := by
  obtain ⟨p, hp, hpk⟩ := map_has_key_exists h
  simp only [map_has_key, List.any_eq_true]
  refine ⟨p, List.mem_filter.mpr ⟨hp, by simp [hpk, hne]⟩, by simp [hpk]⟩

theorem rc_deallocate (m : Manager) (n : String)
    (hrc : registry_consistent m = true) :
    registry_consistent (deallocate m n).1 = true := by
  cases hk : map_has_key m.process_map n with
  | false => rw [deallocate_notfound_shape m n hk]; exact hrc
  | true =>
    rw [deallocate_found_shape m n hk]
    obtain ⟨hnd_o, hnd_k, hentries, hblocks⟩ := (registry_consistent_iff m).mp hrc
    obtain ⟨q, hq, hq1⟩ := map_has_key_exists hk
    obtain ⟨hqmem, hqf, hqn⟩ := hentries q hq
    rw [hq1] at hqn
    obtain ⟨xs, ys, hdecomp⟩ := List.append_of_mem hqmem
    have howners : owners m.blocks = owners xs ++ n :: owners ys := by
      rw [hdecomp, owners_append, owners_cons_alloc hqf hqn]
    have hnxs : n ∉ owners xs ++ owners ys := by
      rw [howners] at hnd_o
      rw [List.nodup_middle, List.nodup_cons] at hnd_o
      exact hnd_o.1
    have hxs : ∀ x ∈ xs, ¬(x.is_free = false ∧ x.process_name = some n) := by
      intro x hx ⟨hf', hn'⟩
      exact hnxs (List.mem_append.mpr (Or.inl (mem_owners hx hf' hn')))
    have hff : free_first n m.blocks =
        xs ++ { q.2 with is_free := true, process_name := none } :: ys := by
      rw [hdecomp]
      exact free_first_splice hqf hqn hxs
    rw [registry_consistent_iff]
    dsimp only
    refine ⟨?_, ?_, ?_, ?_⟩
    · rw [owners_merge, hff, owners_append, owners_cons_free rfl]
      rw [howners, List.nodup_middle, List.nodup_cons] at hnd_o
      exact (List.nodup_append.mp hnd_o.2).1.append
        (List.nodup_append.mp hnd_o.2).2.1
        (List.nodup_append.mp hnd_o.2).2.2
    · exact hnd_k.sublist (List.Sublist.map Prod.fst (List.filter_sublist _))
    · intro p hp
      have hpmem := List.mem_of_mem_filter hp
      have hpne : p.1 ≠ n := by
        have := List.of_mem_filter hp
        simpa using this
      obtain ⟨hpm, hpf, hpn⟩ := hentries p hpmem
      refine ⟨?_, hpf, hpn⟩
      have hpq : p.2 ≠ q.2 := by
        intro he
        rw [he, hqn] at hpn
        injection hpn with hpn
        exact hpne hpn.symm
      have hpm2 : p.2 ∈ xs ++ { q.2 with is_free := true, process_name := none } :: ys := by
        rw [hdecomp] at hpm
        simp only [List.mem_append, List.mem_cons] at hpm ⊢
        rcases hpm with h1 | h1 | h1
        · exact Or.inl h1
        · exact absurd h1 hpq
        · exact Or.inr (Or.inr h1)
      rw [← hff] at hpm2
      exact mem_merge_of_alloc hpf hpm2
    · intro x hx
      constructor
      · intro hxf
        refine merge_free_none _ ?_ x hx hxf
        intro c hc hcf
        rw [hff] at hc
        simp only [List.mem_append, List.mem_cons] at hc
        rcases hc with h1 | h1 | h1
        · exact (hblocks c (by rw [hdecomp]; simp [h1])).1 hcf
        · rw [h1]
        · exact (hblocks c (by rw [hdecomp]; simp [h1])).1 hcf
      · intro hxf
        have hx1 : x ∈ free_first n m.blocks := mem_alloc_of_merge hxf hx
        rw [hff] at hx1
        simp only [List.mem_append, List.mem_cons] at hx1
        have hxorig : x ∈ xs ∨ x ∈ ys := by
          rcases hx1 with h1 | h1 | h1
          · exact Or.inl h1
          · rw [h1] at hxf
            simp at hxf
          · exact Or.inr h1
        have hxmem : x ∈ m.blocks := by
          rw [hdecomp]
          simp only [List.mem_append, List.mem_cons]
          rcases hxorig with h1 | h1
          · exact Or.inl h1
          · exact Or.inr (Or.inr h1)
        obtain ⟨n', hn', hk'⟩ := (hblocks x hxmem).2 hxf
        have hne : n' ≠ n := by
          intro he
          subst he
          rcases hxorig with h1 | h1
          · exact hnxs (List.mem_append.mpr (Or.inl (mem_owners h1 hxf hn')))
          · exact hnxs (List.mem_append.mpr (Or.inr (mem_owners h1 hxf hn')))
        exact ⟨n', hn', map_has_key_filter hk' hne⟩

/-! ## Lemmas about `map_set`, `register_blocks` and `place_blocks` -/

theorem ms_entry_mem {pm : List (String × MemoryBlock)} {k : String}
    {v : MemoryBlock} {p : String × MemoryBlock}
    (hp : p ∈ map_set pm k v) :
    p = (k, v) ∨ (p ∈ pm ∧ p.1 ≠ k) := by
  simp only [map_set] at hp
  split at hp
  · obtain ⟨q, hq, hfq⟩ := List.mem_map.mp hp
    by_cases hqk : q.1 = k
    · left
      rw [← hfq]
      simp [hqk]
    · right
      rw [← hfq]
      simp only [hqk, if_false]
      exact ⟨hq, hqk⟩
  · rcases List.mem_append.mp hp with h1 | h1
    · right
      refine ⟨h1, ?_⟩
      intro he
      rename_i hnk
      have : map_has_key pm k = true := by
        simp only [map_has_key, List.any_eq_true]
        exact ⟨p, h1, by simp [he]⟩
      exact hnk this
    · left
      simpa using h1

theorem ms_mem_set (pm : List (String × MemoryBlock)) (k : String)
    (v : MemoryBlock) : (k, v) ∈ map_set pm k v := by
  simp only [map_set]
  split
  · rename_i hk
    obtain ⟨q, hq, hqk⟩ := map_has_key_exists hk
    refine List.mem_map.mpr ⟨q, hq, ?_⟩
    simp [hqk]
  · simp

theorem ms_keep {pm : List (String × MemoryBlock)} {k : String}
    {v : MemoryBlock} {p : String × MemoryBlock}
    (hp : p ∈ pm) (hne : p.1 ≠ k) : p ∈ map_set pm k v := by
  simp only [map_set]
  split
  · refine List.mem_map.mpr ⟨p, hp, ?_⟩
    simp [hne]
  · exact List.mem_append.mpr (Or.inl hp)

theorem ms_haskey_mono {pm : List (String × MemoryBlock)} {k k2 : String}
    {v : MemoryBlock} (h : map_has_key pm k2 = true) :
    map_has_key (map_set pm k v) k2 = true := by
  obtain ⟨p, hp, hpk⟩ := map_has_key_exists h
  by_cases hke : k2 = k
  · subst hke
    simp only [map_has_key, List.any_eq_true]
    exact ⟨(k2, v), ms_mem_set pm k2 v, by simp⟩
  · simp only [map_has_key, List.any_eq_true]
    exact ⟨p, ms_keep hp (by rw [hpk]; exact hke), by simp [hpk]⟩

theorem keys_map_overwrite (pm : List (String × MemoryBlock)) (k : String)
    (v : MemoryBlock) :
    map_keys (pm.map (fun p => if p.1 = k then (k, v) else p)) =
      map_keys pm := by
  induction pm with
  | nil => rfl
  | cons q qs ih =>
    simp only [List.map_cons, map_keys] at ih ⊢
    by_cases hq : q.1 = k
    · simp only [hq, if_true]
      rw [ih]
    · simp only [hq, if_false]
      rw [ih]

theorem ms_keys_eq {pm : List (String × MemoryBlock)} {k : String}
    {v : MemoryBlock} (h : map_has_key pm k = true) :
    map_keys (map_set pm k v) = map_keys pm := by
  simp only [map_set, h, if_true]
  exact keys_map_overwrite pm k v

theorem rb_keep {p : String × MemoryBlock} :
    ∀ (P : List MemoryBlock) (pm : List (String × MemoryBlock)),
    p ∈ pm → (∀ b ∈ P, b.process_name ≠ some p.1) →
    p ∈ register_blocks pm P := by
  intro P
  induction P with
  | nil => intro pm hp _; exact hp
  | cons b bs ih =>
    intro pm hp hnone
    simp only [register_blocks]
    cases hb : b.process_name with
    | none => exact ih pm hp (fun c hc => hnone c (by simp [hc]))
    | some nb =>
      refine ih _ (ms_keep hp ?_) (fun c hc => hnone c (by simp [hc]))
      intro he
      exact hnone b (by simp) (by rw [hb, he])

theorem rb_entry {p : String × MemoryBlock} :
    ∀ (P : List MemoryBlock) (pm : List (String × MemoryBlock)),
    p ∈ register_blocks pm P →
    (p ∈ pm ∧ (∀ b ∈ P, b.process_name ≠ some p.1)) ∨
    (∃ b ∈ P, b.process_name = some p.1 ∧ p.2 = b) := by
  intro P
  induction P with
  | nil => intro pm hp; exact Or.inl ⟨hp, by intro b hb; cases hb⟩
  | cons b bs ih =>
    intro pm hp
    simp only [register_blocks] at hp
    cases hb : b.process_name with
    | none =>
      rw [hb] at hp
      rcases ih _ hp with ⟨h1, h2⟩ | ⟨c, hc, h1, h2⟩
      · refine Or.inl ⟨h1, ?_⟩
        intro c hc
        rcases List.mem_cons.mp hc with rfl | hc
        · rw [hb]; simp
        · exact h2 c hc
      · exact Or.inr ⟨c, by simp [hc], h1, h2⟩
    | some nb =>
      rw [hb] at hp
      rcases ih _ hp with ⟨h1, h2⟩ | ⟨c, hc, h1, h2⟩
      · rcases ms_entry_mem h1 with h3 | ⟨h3, h4⟩
        · refine Or.inr ⟨b, by simp, ?_, ?_⟩
          · rw [hb, h3]
          · rw [h3]
        · refine Or.inl ⟨h3, ?_⟩
          intro c hc
          rcases List.mem_cons.mp hc with rfl | hc
          · rw [hb]
            intro he
            injection he with he
            exact h4 he.symm
          · exact h2 c hc
      · exact Or.inr ⟨c, by simp [hc], h1, h2⟩

theorem rb_mem {n : String} {b : MemoryBlock} :
    ∀ (P : List MemoryBlock) (pm : List (String × MemoryBlock)),
    (P.filterMap (fun c => c.process_name)).Nodup →
    b ∈ P → b.process_name = some n →
    (n, b) ∈ register_blocks pm P := by
  intro P
  induction P with
  | nil => intro pm _ hb; cases hb
  | cons c cs ih =>
    intro pm hnd hb hn
    simp only [register_blocks]
    rcases List.mem_cons.mp hb with rfl | hb
    · rw [hn]
      refine rb_keep cs _ (ms_mem_set pm n b) ?_
      intro d hd he
      simp only [List.filterMap_cons, hn] at hnd
      rw [List.nodup_cons] at hnd
      exact hnd.1 (List.mem_filterMap.mpr ⟨d, hd, by simpa using he⟩)
    · cases hc : c.process_name with
      | none =>
        refine ih _ ?_ hb hn
        simpa [List.filterMap_cons, hc] using hnd
      | some nc =>
        refine ih _ ?_ hb hn
        simp only [List.filterMap_cons, hc] at hnd
        rw [List.nodup_cons] at hnd
        exact hnd.2

theorem rb_haskey_mono {k : String} :
    ∀ (P : List MemoryBlock) (pm : List (String × MemoryBlock)),
    map_has_key pm k = true → map_has_key (register_blocks pm P) k = true := by
  intro P
  induction P with
  | nil => intro pm h; exact h
  | cons b bs ih =>
    intro pm h
    simp only [register_blocks]
    cases hb : b.process_name with
    | none => exact ih pm h
    | some nb => exact ih _ (ms_haskey_mono h)

theorem rb_keys_eq :
    ∀ (P : List MemoryBlock) (pm : List (String × MemoryBlock)),
    (∀ b ∈ P, ∀ n, b.process_name = some n → map_has_key pm n = true) →
    map_keys (register_blocks pm P) = map_keys pm := by
  intro P
  induction P with
  | nil => intro pm _; rfl
  | cons b bs ih =>
    intro pm h
    simp only [register_blocks]
    cases hb : b.process_name with
    | none => exact ih pm (fun c hc => h c (by simp [hc]))
    | some nb =>
      have hkey : map_has_key pm nb = true := h b (by simp) nb hb
      rw [ih _ ?_, ms_keys_eq hkey]
      intro c hc n hn
      exact ms_haskey_mono (h c (by simp [hc]) n hn)

theorem owners_place (l : List MemoryBlock) (pos : Int) :
    owners (place_blocks pos l) = l.filterMap (fun b => b.process_name) := by
  induction l generalizing pos with
  | nil => rfl
  | cons b bs ih =>
    simp only [place_blocks, List.filterMap_cons]
    cases hb : b.process_name with
    | none =>
      rw [owners_cons_none rfl rfl, ih]
    | some n =>
      rw [owners_cons_alloc (n := n) rfl rfl, ih]

theorem mem_place_inv {x : MemoryBlock} {l : List MemoryBlock} {pos : Int}
    (hx : x ∈ place_blocks pos l) :
    ∃ b ∈ l, x.process_name = b.process_name ∧ x.is_free = false := by
  induction l generalizing pos with
  | nil => cases hx
  | cons b bs ih =>
    simp only [place_blocks, List.mem_cons] at hx
    rcases hx with rfl | hx
    · exact ⟨b, by simp, rfl, rfl⟩
    · obtain ⟨c, hc, h1, h2⟩ := ih hx
      exact ⟨c, by simp [hc], h1, h2⟩

theorem mem_place_of {b : MemoryBlock} {l : List MemoryBlock}
    (hb : b ∈ l) (pos : Int) :
    ∃ x ∈ place_blocks pos l, x.process_name = b.process_name := by
  induction l generalizing pos with
  | nil => cases hb
  | cons c cs ih =>
    rcases List.mem_cons.mp hb with rfl | hb
    · exact ⟨⟨pos, b.size, false, b.process_name⟩, by simp [place_blocks], rfl⟩
    · obtain ⟨x, hx, h1⟩ := ih hb (pos + c.size)
      exact ⟨x, by simp [place_blocks, hx], h1⟩

theorem owners_eq_filter (l : List MemoryBlock) :
    owners l = (l.filter (fun b => !b.is_free)).filterMap
      (fun b => b.process_name) := by
  induction l with
  | nil => rfl
  | cons b bs ih =>
    cases hb : b.is_free with
    | true =>
      rw [owners_cons_free hb]
      simp [List.filter_cons, hb, ih]
    | false =>
      simp only [List.filter_cons, hb]
      cases hn : b.process_name with
      | none =>
        rw [owners_cons_none hb hn]
        simp [List.filterMap_cons, hn, ih]
      | some n =>
        rw [owners_cons_alloc hb hn]
        simp [List.filterMap_cons, hn, ih]

theorem owners_nil_of_free {l : List MemoryBlock}
    (h : ∀ x ∈ l, x.is_free = true) : owners l = [] := by
  induction l with
  | nil => rfl
  | cons b bs ih =>
    rw [owners_cons_free (h b (by simp))]
    exact ih fun x hx => h x (by simp [hx])

theorem rc_compact_core (m : Manager) (tail : List MemoryBlock)
    (hrc : registry_consistent m = true)
    (htail : ∀ x ∈ tail, x.is_free = true ∧ x.process_name = none) :
    registry_consistent
      ⟨m.total_memory,
        place_blocks 0 (m.blocks.filter (fun b => !b.is_free)) ++ tail,
        register_blocks m.process_map
          (place_blocks 0 (m.blocks.filter (fun b => !b.is_free)))⟩ = true := by
  obtain ⟨hnd_o, hnd_k, hentries, hblocks⟩ := (registry_consistent_iff m).mp hrc
  have howners_pl : owners (place_blocks 0 (m.blocks.filter (fun b => !b.is_free))) =
      owners m.blocks := by
    rw [owners_place, owners_eq_filter]
  have hFkeys : ∀ b ∈ m.blocks.filter (fun b => !b.is_free), ∀ n,
      b.process_name = some n → map_has_key m.process_map n = true := by
    intro b hb n hn
    have hbm : b ∈ m.blocks := List.mem_of_mem_filter hb
    have hbf : b.is_free = false := by
      have := List.of_mem_filter hb
      simpa using this
    obtain ⟨n', hn', hk'⟩ := (hblocks b hbm).2 hbf
    rw [hn] at hn'
    injection hn' with hn'
    subst hn'
    exact hk'
  rw [registry_consistent_iff]
  dsimp only
  refine ⟨?_, ?_, ?_, ?_⟩
  · rw [owners_append, owners_nil_of_free (fun x hx => (htail x hx).1),
      List.append_nil, howners_pl]
    exact hnd_o
  · have hPkeys : ∀ b ∈ place_blocks 0 (m.blocks.filter (fun b => !b.is_free)),
        ∀ n, b.process_name = some n → map_has_key m.process_map n = true := by
      intro b hb n hn
      obtain ⟨c, hc, h1, _⟩ := mem_place_inv hb
      refine hFkeys c hc n ?_
      rw [← h1]
      exact hn
    rw [rb_keys_eq _ _ hPkeys]
    exact hnd_k
  · intro p hp
    rcases rb_entry _ _ hp with ⟨h1, h2⟩ | ⟨b, hb, h1, h2⟩
    · exfalso
      obtain ⟨hpm, hpf, hpn⟩ := hentries p h1
      have : p.1 ∈ owners (place_blocks 0 (m.blocks.filter (fun b => !b.is_free))) := by
        rw [howners_pl]
        exact mem_owners hpm hpf hpn
      obtain ⟨x, hx, hxf, hxn⟩ := owners_mem_inv this
      exact h2 x hx hxn
    · refine ⟨List.mem_append.mpr (Or.inl (h2 ▸ hb)), ?_, ?_⟩
      · rw [h2]
        exact place_blocks_alloc _ _ b hb
      · rw [h2, h1]
  · intro x hx
    rcases List.mem_append.mp hx with hx | hx
    · have hxf : x.is_free = false := place_blocks_alloc _ _ x hx
      constructor
      · intro h
        rw [h] at hxf
        cases hxf
      · intro _
        obtain ⟨b, hb, h1, _⟩ := mem_place_inv hx
        have hbf : b.is_free = false := by
          have := List.of_mem_filter hb
          simpa using this
        obtain ⟨n, hn, hk⟩ :=
          (hblocks b (List.mem_of_mem_filter hb)).2 hbf
        exact ⟨n, by rw [h1, hn], rb_haskey_mono _ _ hk⟩
    · obtain ⟨hxf, hxn⟩ := htail x hx
      constructor
      · intro _
        exact hxn
      · intro h
        rw [h] at hxf
        cases hxf

theorem rc_compact (m : Manager) (hrc : registry_consistent m = true) :
    registry_consistent (compact m).1 = true := by
  cases hemp : m.blocks.filter (fun b => !b.is_free) with
  | nil => rw [compact_empty_shape m hemp]; exact hrc
  | cons c cs =>
    rw [compact_success_shape m (by rw [hemp]; exact List.cons_ne_nil c cs)]
    by_cases hfs : 0 < m.total_memory -
        sum_sizes (m.blocks.filter (fun b => !b.is_free))
    · have := rc_compact_core m
        [⟨sum_sizes (m.blocks.filter (fun b => !b.is_free)),
          m.total_memory - sum_sizes (m.blocks.filter (fun b => !b.is_free)),
          true, none⟩] hrc (by intro x hx; simp at hx; rw [hx]; exact ⟨rfl, rfl⟩)
      simpa [hfs] using this
    · have := rc_compact_core m [] hrc (by intro x hx; cases hx)
      simpa [hfs] using this

theorem rc_reset (m : Manager) (c : Option Int) :
    registry_consistent (reset m c) = true := by
  rw [registry_consistent_iff]
  refine ⟨?_, ?_, ?_, ?_⟩
  · simp [reset, init_blocks, owners]
  · simp [reset, map_keys]
  · intro p hp
    simp [reset] at hp
  · intro b hb
    simp only [reset, init_blocks, List.mem_singleton] at hb
    subst hb
    exact ⟨fun _ => rfl, by intro h; cases h⟩

theorem rc_mk (total : Int) : registry_consistent (mk_manager total) = true := by
  rw [registry_consistent_iff]
  refine ⟨?_, ?_, ?_, ?_⟩
  · simp [mk_manager, init_blocks, owners]
  · simp [mk_manager, map_keys]
  · intro p hp
    simp [mk_manager] at hp
  · intro b hb
    simp only [mk_manager, init_blocks, List.mem_singleton] at hb
    subst hb
    exact ⟨fun _ => rfl, by intro h; cases h⟩

theorem rc_apply_op (m : Manager) (o : Op)
    (hrc : registry_consistent m = true) :
    registry_consistent (apply_op m o) = true := by
  cases o with
  | alloc n s r => exact rc_allocate m n s r hrc
  | dealloc n => exact rc_deallocate m n hrc
  | compactAll => exact rc_compact m hrc
  | resetTo c => exact rc_reset m c

theorem rc_run_ops (ops : List Op) :
    ∀ m : Manager, registry_consistent m = true →
    registry_consistent (run_ops m ops) = true := by
  induction ops with
  | nil => intro m h; exact h
  | cons o os ih => intro m h; exact ih _ (rc_apply_op m o h)

theorem owner_unique {l : List MemoryBlock} (hnd : (owners l).Nodup)
    {b c : MemoryBlock} {n : String}
    (hb : b ∈ l) (hbf : b.is_free = false) (hbn : b.process_name = some n)
    (hc : c ∈ l) (hcf : c.is_free = false) (hcn : c.process_name = some n) :
    b = c := by
  induction l with
  | nil => cases hb
  | cons x xs ih =>
    rcases List.mem_cons.mp hb with rfl | hb' <;>
      rcases List.mem_cons.mp hc with rfl | hc'
    · rfl
    · exfalso
      rw [owners_cons_alloc hbf hbn, List.nodup_cons] at hnd
      exact hnd.1 (mem_owners hc' hcf hcn)
    · exfalso
      rw [owners_cons_alloc hcf hcn, List.nodup_cons] at hnd
      exact hnd.1 (mem_owners hb' hbf hbn)
    · refine ih ?_ hb' hc'
      cases hx : x.is_free with
      | true => rw [owners_cons_free hx] at hnd; exact hnd
      | false =>
        cases hxn : x.process_name with
        | none => rw [owners_cons_none hx hxn] at hnd; exact hnd
        | some nx =>
          rw [owners_cons_alloc hx hxn, List.nodup_cons] at hnd
          exact hnd.2

/-- C1 counterexample: the claim quantifies over every sequence of
engine calls, but `allocate("A", 0, use_rounding := false)` is accepted
and splits the initial free block into a zero-size allocated block
followed by the untouched free block, so the resulting block sequence no
longer partitions `[0, 16)` into blocks of positive size. -/
theorem C1_counterexample :
    layout_ok (run_ops (mk_manager 16) [Op.alloc "A" 0 false]) = false := by
  decide

/-- C1 (amended): for every construction capacity `0 < total` and every
call sequence in which each allocate uses rounding or a positive size and
each reset capacity is absent, zero or non-negative, every reachable
state's block sequence partitions `[0, total_capacity)` exactly (ascending
contiguous starts from 0, positive sizes, last end = capacity) and no two
adjacent blocks are both free. -/
theorem C1_amended (total : Int) (ops : List Op)
    (htotal : 0 < total) (hops : ops.all op_ok = true) :
    blocks_partition (run_ops (mk_manager total) ops).total_memory
      (run_ops (mk_manager total) ops).blocks = true ∧
    no_adj_free (run_ops (mk_manager total) ops).blocks = true := by
  have h := good_state_run_ops ops (mk_manager total)
    (good_state_mk total htotal) hops
  simp only [good_state, layout_ok, Bool.and_eq_true] at h
  exact ⟨h.2.1, h.2.2⟩

/-- C1 amended witness: a concrete run through all four operations under
the amended side conditions. -/
theorem C1_amended_witness :
    (0 : Int) < 16 ∧
    ([Op.alloc "A" 4 false, Op.alloc "B" 3 true, Op.dealloc "A",
      Op.compactAll, Op.resetTo (some 8)].all op_ok = true) ∧
    (blocks_partition
      (run_ops (mk_manager 16) [Op.alloc "A" 4 false, Op.alloc "B" 3 true,
        Op.dealloc "A", Op.compactAll, Op.resetTo (some 8)]).total_memory
      (run_ops (mk_manager 16) [Op.alloc "A" 4 false, Op.alloc "B" 3 true,
        Op.dealloc "A", Op.compactAll, Op.resetTo (some 8)]).blocks = true ∧
    no_adj_free
      (run_ops (mk_manager 16) [Op.alloc "A" 4 false, Op.alloc "B" 3 true,
        Op.dealloc "A", Op.compactAll, Op.resetTo (some 8)]).blocks = true) :=
  ⟨by decide, by decide,
    C1_amended 16 [Op.alloc "A" 4 false, Op.alloc "B" 3 true, Op.dealloc "A",
      Op.compactAll, Op.resetTo (some 8)] (by decide) (by decide)⟩

/-- C8: in every state reachable from construction by any sequence of
engine calls, the registry is consistent with the block sequence: the key
set equals the owner-name set of non-free blocks, each key maps to the
unique block it owns (which is a non-free block of the sequence carrying
that owner), and free blocks carry no owner. -/
theorem C8_registry (total : Int) (ops : List Op) :
    registry_consistent (run_ops (mk_manager total) ops) = true ∧
    (∀ n, n ∈ map_keys (run_ops (mk_manager total) ops).process_map ↔
      n ∈ owners (run_ops (mk_manager total) ops).blocks) ∧
    (∀ p ∈ (run_ops (mk_manager total) ops).process_map,
      p.2 ∈ (run_ops (mk_manager total) ops).blocks ∧
      p.2.is_free = false ∧ p.2.process_name = some p.1 ∧
      (∀ b ∈ (run_ops (mk_manager total) ops).blocks,
        b.is_free = false → b.process_name = some p.1 → b = p.2)) ∧
    (∀ b ∈ (run_ops (mk_manager total) ops).blocks,
      b.is_free = true → b.process_name = none) := by
  have hrc := rc_run_ops ops (mk_manager total) (rc_mk total)
  obtain ⟨hnd_o, hnd_k, hentries, hblocks⟩ :=
    (registry_consistent_iff _).mp hrc
  refine ⟨hrc, ?_, ?_, fun b hb => (hblocks b hb).1⟩
  · intro n
    constructor
    · intro hn
      obtain ⟨p, hp, hpk⟩ := map_has_key_exists (map_has_key_iff.mpr hn)
      obtain ⟨hpm, hpf, hpn⟩ := hentries p hp
      exact mem_owners hpm hpf (by rw [hpn, hpk])
    · intro hn
      obtain ⟨b, hbm, hbf, hbn⟩ := owners_mem_inv hn
      obtain ⟨n', hn', hk'⟩ := (hblocks b hbm).2 hbf
      rw [hbn] at hn'
      injection hn' with hn'
      subst hn'
      exact map_has_key_iff.mp hk'
  · intro p hp
    obtain ⟨hpm, hpf, hpn⟩ := hentries p hp
    refine ⟨hpm, hpf, hpn, ?_⟩
    intro b hb hbf hbn
    exact owner_unique hnd_o hb hbf hbn hpm hpf hpn

/-- C4: every failing engine call (duplicate-name allocate, no-fit
allocate, unknown-name deallocate, compact with nothing allocated)
returns a failure flag plus its message and the state entirely unchanged
(same blocks, registry and capacity, hence all derived metrics). -/
theorem C4_failures (m : Manager) (name : String) (size : Int) (r : Bool) :
    (map_has_key m.process_map name = true →
      allocate m name size r = (m, false, "already allocated", none)) ∧
    (map_has_key m.process_map name = false →
      find_best_fit m.blocks
        (if r then round_to_power_of_2 size else size) = none →
      allocate m name size r =
        (m, false, "No suitable free block found. Try compaction.", none)) ∧
    (map_has_key m.process_map name = false →
      deallocate m name = (m, false, "not found")) ∧
    (m.blocks.filter (fun b => !b.is_free) = [] →
      compact m = (m, false, "No allocated blocks to compact", 0)) :=
  ⟨allocate_dup_shape m name size r,
    fun h1 h2 => allocate_nofit_shape m name size r h1 h2,
    deallocate_notfound_shape m name,
    compact_empty_shape m⟩

/-- C4 witness: the four failure modes on concrete states. -/
theorem C4_failures_witness :
    (allocate ((allocate (mk_manager 8) "A" 2 false).1) "A" 1 false =
      ((allocate (mk_manager 8) "A" 2 false).1, false,
        "already allocated", none)) ∧
    (allocate ((allocate (mk_manager 8) "A" 2 false).1) "B" 100 false =
      ((allocate (mk_manager 8) "A" 2 false).1, false,
        "No suitable free block found. Try compaction.", none)) ∧
    (deallocate (mk_manager 8) "Z" = (mk_manager 8, false, "not found")) ∧
    (compact (mk_manager 8) =
      (mk_manager 8, false, "No allocated blocks to compact", 0)) :=
  ⟨(C4_failures ((allocate (mk_manager 8) "A" 2 false).1) "A" 1 false).1
      (by decide),
    (C4_failures ((allocate (mk_manager 8) "A" 2 false).1) "B" 100 false).2.1
      (by decide) (by decide),
    (C4_failures (mk_manager 8) "Z" 0 false).2.2.1 (by decide),
    (C4_failures (mk_manager 8) "X" 0 false).2.2.2 (by decide)⟩

/-- C5 counterexample: neither the constructor nor `reset` validates the
capacity; constructing with -5 (or 0) and resetting to -5 silently
establish a state with that capacity rather than failing with an
`InvalidCapacity` outcome. -/
theorem C5_counterexample :
    (mk_manager (-5)).total_memory = -5 ∧
    (mk_manager (-5)).blocks = [⟨0, -5, true, none⟩] ∧
    (mk_manager 0).total_memory = 0 ∧
    (reset (mk_manager 16) (some (-5))).total_memory = -5 ∧
    (reset (mk_manager 16) (some (-5))).blocks = [⟨0, -5, true, none⟩] := by
  refine ⟨rfl, rfl, rfl, ?_, ?_⟩ <;> simp [reset, mk_manager, init_blocks]

/-- C5 (amended): the engine performs no capacity validation and has no
`InvalidCapacity` outcome: construction with any capacity `c` (positive
or not) establishes a state with `total_capacity = c` and a single free
block of size `c`; `reset` with a non-zero capacity argument installs
that capacity the same way, while `reset` with 0 keeps the old
capacity. -/
theorem C5_amended (c : Int) (m : Manager) :
    (mk_manager c).total_memory = c ∧
    (mk_manager c).blocks = [⟨0, c, true, none⟩] ∧
    (mk_manager c).process_map = [] ∧
    (c ≠ 0 → reset m (some c) = ⟨c, [⟨0, c, true, none⟩], []⟩) ∧
    reset m (some 0) = ⟨m.total_memory, [⟨0, m.total_memory, true, none⟩], []⟩ := by
  refine ⟨rfl, rfl, rfl, ?_, ?_⟩
  · intro hc
    simp [reset, init_blocks, hc]
  · simp [reset, init_blocks]

/-- C5 amended witness: instantiated at capacity -5. -/
theorem C5_amended_witness :
    (mk_manager (-5)).total_memory = -5 ∧
    ((-5 : Int) ≠ 0 ∧
      reset (mk_manager 16) (some (-5)) = ⟨-5, [⟨0, -5, true, none⟩], []⟩) :=
  ⟨(C5_amended (-5) (mk_manager 16)).1,
    by decide, (C5_amended (-5) (mk_manager 16)).2.2.2.1 (by decide)⟩

theorem round_pow (s : Int) (h : 0 < s) :
    round_to_power_of_2 s = 2 ^ Nat.clog 2 s.toNat := by
  simp [round_to_power_of_2, not_le.mpr h]

theorem round_ge (s : Int) (h : 0 < s) : s ≤ round_to_power_of_2 s := by
  rw [round_pow s h]
  have h1 : s.toNat ≤ 2 ^ Nat.clog 2 s.toNat := Nat.le_pow_clog one_lt_two _
  have h2 : (s.toNat : Int) = s := Int.toNat_of_nonneg (le_of_lt h)
  calc s = (s.toNat : Int) := h2.symm
    _ ≤ ((2 ^ Nat.clog 2 s.toNat : Nat) : Int) := by exact_mod_cast h1
    _ = (2 : Int) ^ Nat.clog 2 s.toNat := by push_cast; ring

theorem round_min (s : Int) (h : 0 < s) (k : Nat) (hk : s ≤ 2 ^ k) :
    round_to_power_of_2 s ≤ 2 ^ k := by
  rw [round_pow s h]
  have h1 : s.toNat ≤ 2 ^ k := by
    rw [Int.toNat_le]
    exact_mod_cast hk
  have h2 : Nat.clog 2 s.toNat ≤ k := (Nat.le_pow_iff_clog_le one_lt_two).mp h1
  exact pow_le_pow_right (by norm_num) h2

theorem round_100 : round_to_power_of_2 100 = 128 := by
  have hclog : Nat.clog 2 (100 : Int).toNat = 7 := by
    have h1 : Nat.clog 2 (100 : Int).toNat ≤ 7 :=
      (Nat.le_pow_iff_clog_le one_lt_two).mp (by norm_num)
    have h2 : ¬ Nat.clog 2 (100 : Int).toNat ≤ 6 := by
      intro h
      have := (Nat.le_pow_iff_clog_le one_lt_two).mpr h
      norm_num at this
    omega
  rw [round_pow 100 (by norm_num), hclog]
  norm_num

/-- C7: with rounding enabled the reserved size is the least power of two
that is at least the requested size (1 for non-positive requests); with
rounding disabled the requested size is reserved unchanged; allocating a
requested 100 units with rounding on in a fresh 1024-unit manager makes
used_memory 128. -/
theorem C7_rounding :
    (∀ s : Int, s ≤ 0 → round_to_power_of_2 s = 1) ∧
    (∀ s : Int, 0 < s →
      (∃ k : Nat, round_to_power_of_2 s = 2 ^ k) ∧
      s ≤ round_to_power_of_2 s ∧
      (∀ k : Nat, s ≤ 2 ^ k → round_to_power_of_2 s ≤ 2 ^ k)) ∧
    (∀ s : Int, (if false then round_to_power_of_2 s else s) = s) ∧
    get_used_memory ((allocate (mk_manager 1024) "X" 100 true).1) = 128 := by
  refine ⟨?_, ?_, fun s => rfl, ?_⟩
  · intro s hs
    simp [round_to_power_of_2, hs]
  · intro s hs
    exact ⟨⟨Nat.clog 2 s.toNat, round_pow s hs⟩, round_ge s hs, round_min s hs⟩
  · have hif : (if (true : Bool) then round_to_power_of_2 100 else (100 : Int))
        = 128 := by simpa using round_100
    have hfbf : find_best_fit (mk_manager 1024).blocks
        (if (true : Bool) then round_to_power_of_2 100 else 100) = some 0 := by
      rw [hif]
      decide
    have hget : (mk_manager 1024).blocks.get? 0 = some ⟨0, 1024, true, none⟩ :=
      rfl
    obtain ⟨h1, _⟩ := allocate_success_shape (mk_manager 1024) "X" 100 true
      rfl hfbf hget
    rw [h1 (by rw [hif]; decide)]
    simp [get_used_memory, sum_sizes, mk_manager, init_blocks,
      List.filter_cons, hif]
    exact round_100

/-- C7 witness: the rounding spec applied at requested sizes 100 and -3. -/
theorem C7_rounding_witness :
    ((-3 : Int) ≤ 0 ∧ round_to_power_of_2 (-3) = 1) ∧
    ((0 : Int) < 100 ∧ 100 ≤ round_to_power_of_2 100) := by
  refine ⟨⟨by decide, C7_rounding.1 (-3) (by decide)⟩,
    ⟨by decide, (C7_rounding.2.1 100 (by decide)).2.1⟩⟩

/-- C9: the fragmentation ratio is 0 when at most one free block exists
and `(free_block_count - 1) / total_block_count` otherwise, and it is a
pure function of the block sequence (no state mutation). -/
theorem C9_fragmentation (m : Manager) :
    ((m.blocks.filter (fun b => b.is_free)).length ≤ 1 →
      get_fragmentation_ratio m = 0) ∧
    (1 < (m.blocks.filter (fun b => b.is_free)).length →
      get_fragmentation_ratio m =
        (((m.blocks.filter (fun b => b.is_free)).length : Rat) - 1) /
          (m.blocks.length : Rat)) ∧
    (∀ m2 : Manager, m2.blocks = m.blocks →
      get_fragmentation_ratio m2 = get_fragmentation_ratio m) := by
  refine ⟨?_, ?_, ?_⟩
  · intro h
    simp only [get_fragmentation_ratio, h, if_true]
  · intro h
    simp only [get_fragmentation_ratio]
    rw [if_neg (by omega)]
  · intro m2 h
    simp only [get_fragmentation_ratio, h]

/-- C9 witness: a fragmented four-block state with two free holes has
ratio (2-1)/4, and a fresh manager has ratio 0. -/
theorem C9_fragmentation_witness :
    ((mk_manager 4).blocks.filter (fun b => b.is_free)).length ≤ 1 ∧
    get_fragmentation_ratio (mk_manager 4) = 0 :=
  ⟨by decide, (C9_fragmentation (mk_manager 4)).1 (by decide)⟩

/-- C10: reset with no argument and reset with capacity 0 coincide: both
keep `total_capacity` and reinitialize to a single free block spanning the
whole range with an empty registry. -/
theorem C10_reset (m : Manager) :
    reset m none = reset m (some 0) ∧
    reset m none =
      ⟨m.total_memory, [⟨0, m.total_memory, true, none⟩], []⟩ := by
  constructor <;> simp [reset, init_blocks]

/-! ## Best-fit selection and allocation (C2) -/

theorem chain_start_lower {pos : Int} {bs : List MemoryBlock}
    (h : chain_ok pos bs = true) :
    ∀ {j : Nat} {b : MemoryBlock}, bs.get? j = some b → pos ≤ b.start := by
  induction bs generalizing pos with
  | nil => intro j b hj; simp at hj
  | cons x xs ih =>
    intro j b hj
    obtain ⟨h1, h2, h3⟩ := chain_ok_cons.mp h
    cases j with
    | zero =>
      simp only [List.get?_cons_zero, Option.some.injEq] at hj
      subst hj
      omega
    | succ j' =>
      simp only [List.get?_cons_succ] at hj
      have := ih h3 hj
      omega

theorem chain_start_mono {bs : List MemoryBlock} {pos : Int}
    (h : chain_ok pos bs = true) :
    ∀ {i j : Nat} {bi bj : MemoryBlock}, bs.get? i = some bi →
      bs.get? j = some bj → i ≤ j → bi.start ≤ bj.start := by
  induction bs generalizing pos with
  | nil => intro i j bi bj hi; simp at hi
  | cons x xs ih =>
    intro i j bi bj hi hj hij
    obtain ⟨h1, h2, h3⟩ := chain_ok_cons.mp h
    cases i with
    | zero =>
      simp only [List.get?_cons_zero, Option.some.injEq] at hi
      subst hi
      cases j with
      | zero =>
        simp only [List.get?_cons_zero, Option.some.injEq] at hj
        subst hj
        exact le_refl _
      | succ j' =>
        simp only [List.get?_cons_succ] at hj
        have := chain_start_lower h3 hj
        omega
    | succ i' =>
      cases j with
      | zero => omega
      | succ j' =>
        simp only [List.get?_cons_succ] at hi hj
        exact ih h3 hi hj (by omega)

/-- C2: allocation behaviour on any state whose block list is chained in
address order.  A duplicate name fails; if no free block can hold the
rounded size the call fails; otherwise the scan picks the free block of
smallest sufficient size, breaking ties by lowest address, consumes it
entirely when its size equals the reserved size or splits it into an
allocated prefix and a free remainder inserted right after, appends the
registry entry, and returns the chosen block's original start. -/
theorem C2_allocate (m : Manager) (name : String) (size : Int) (r : Bool)
    (hch : chain_ok 0 m.blocks = true) :
    (map_has_key m.process_map name = true →
      allocate m name size r = (m, false, "already allocated", none)) ∧
    (map_has_key m.process_map name = false →
      (∀ b ∈ m.blocks, b.is_free = true →
        b.size < (if r then round_to_power_of_2 size else size)) →
      allocate m name size r =
        (m, false, "No suitable free block found. Try compaction.", none)) ∧
    (map_has_key m.process_map name = false →
      (∃ b ∈ m.blocks, b.is_free = true ∧
        (if r then round_to_power_of_2 size else size) ≤ b.size) →
      ∃ i b, find_best_fit m.blocks
          (if r then round_to_power_of_2 size else size) = some i ∧
        m.blocks.get? i = some b ∧ b.is_free = true ∧
        (if r then round_to_power_of_2 size else size) ≤ b.size ∧
        (∀ j c, m.blocks.get? j = some c → c.is_free = true →
          (if r then round_to_power_of_2 size else size) ≤ c.size →
          b.size ≤ c.size ∧ (c.size = b.size → b.start ≤ c.start)) ∧
        (b.size = (if r then round_to_power_of_2 size else size) →
          allocate m name size r =
            ({ m with
                blocks := m.blocks.take i ++
                  [⟨b.start, b.size, false, some name⟩] ++
                  m.blocks.drop (i + 1),
                process_map := m.process_map ++
                  [(name, ⟨b.start, b.size, false, some name⟩)] },
              true, "allocated", some b.start)) ∧
        ((if r then round_to_power_of_2 size else size) < b.size →
          allocate m name size r =
            ({ m with
                blocks := m.blocks.take i ++
                  [⟨b.start, (if r then round_to_power_of_2 size else size),
                    false, some name⟩,
                   ⟨b.start + (if r then round_to_power_of_2 size else size),
                    b.size - (if r then round_to_power_of_2 size else size),
                    true, none⟩] ++
                  m.blocks.drop (i + 1),
                process_map := m.process_map ++
                  [(name, ⟨b.start,
                    (if r then round_to_power_of_2 size else size),
                    false, some name⟩)] },
              true, "allocated", some b.start))) := by
  refine ⟨allocate_dup_shape m name size r, ?_, ?_⟩
  · intro hdup hnone
    exact allocate_nofit_shape m name size r hdup (find_best_fit_none hnone)
  · intro hdup hex
    obtain ⟨c, hc, hcf, hcs⟩ := hex
    obtain ⟨j, hj⟩ := List.mem_iff_get?.mp hc
    obtain ⟨i, hi⟩ := find_best_fit_isSome hj hcf hcs
    obtain ⟨b, hget, hbf, hbs, hmin, htie⟩ := find_best_fit_some hi
    obtain ⟨hshape1, hshape2⟩ := allocate_success_shape m name size r hdup hi hget
    refine ⟨i, b, hi, hget, hbf, hbs, ?_, ?_, ?_⟩
    · intro k c' hk hcf' hcs'
      refine ⟨hmin k c' hk hcf' hcs', ?_⟩
      intro hceq
      exact chain_start_mono hch hget hk (htie k c' hk hcf' hcs' hceq)
    · intro heq
      exact hshape2 (by omega)
    · intro hlt
      exact hshape1 hlt

/-- C2 witness: the duplicate-name failure applied on a concrete state
with "A" already registered. -/
theorem C2_allocate_witness :
    chain_ok 0 ((allocate (mk_manager 8) "A" 2 false).1).blocks = true ∧
    map_has_key ((allocate (mk_manager 8) "A" 2 false).1).process_map "A"
      = true ∧
    allocate ((allocate (mk_manager 8) "A" 2 false).1) "A" 1 false =
      ((allocate (mk_manager 8) "A" 2 false).1, false,
        "already allocated", none) :=
  ⟨by decide, by decide,
    (C2_allocate ((allocate (mk_manager 8) "A" 2 false).1) "A" 1 false
      (by decide)).1 (by decide)⟩

/-! ## Compaction (C3) -/

theorem place_map_sizes (l : List MemoryBlock) (pos : Int) :
    (place_blocks pos l).map (fun b => (b.size, b.process_name)) =
      l.map (fun b => (b.size, b.process_name)) := by
  induction l generalizing pos with
  | nil => rfl
  | cons b bs ih => simp [place_blocks, ih]

theorem place_filterMap_names (l : List MemoryBlock) (pos : Int) :
    (place_blocks pos l).filterMap (fun b => b.process_name) =
      l.filterMap (fun b => b.process_name) := by
  induction l generalizing pos with
  | nil => rfl
  | cons b bs ih => simp [place_blocks, List.filterMap_cons, ih]

theorem filter_alloc_place (l : List MemoryBlock) (pos : Int) :
    (place_blocks pos l).filter (fun b => !b.is_free) = place_blocks pos l :=
  List.filter_eq_self.mpr
    (fun b hb => by rw [place_blocks_alloc l pos b hb]; rfl)

/-- C3: compaction fails exactly when no block is allocated; on success it
returns the allocated-block count, keeps the capacity, preserves each
allocated block's size and owner in their previous relative order,
re-places them contiguously from address 0 so the block list again spans
`[0, total_capacity)`, leaves at most one free block (a single trailing
free block covering the remainder, omitted exactly when the allocated
blocks fill the capacity), and rebuilds the registry so every relocated
block is registered under its owner at its new location. -/
theorem C3_compact (m : Manager)
    (hch : chain_ok 0 m.blocks = true)
    (hend : end_pos 0 m.blocks = m.total_memory)
    (hrc : registry_consistent m = true) :
    ((compact m).2.1 = false ↔ m.blocks.filter (fun b => !b.is_free) = []) ∧
    (m.blocks.filter (fun b => !b.is_free) ≠ [] →
      (compact m).2.2.2 = (m.blocks.filter (fun b => !b.is_free)).length ∧
      (compact m).1.total_memory = m.total_memory ∧
      ((compact m).1.blocks.filter (fun b => !b.is_free)).map
          (fun b => (b.size, b.process_name)) =
        (m.blocks.filter (fun b => !b.is_free)).map
          (fun b => (b.size, b.process_name)) ∧
      chain_ok 0 (compact m).1.blocks = true ∧
      end_pos 0 (compact m).1.blocks = m.total_memory ∧
      ((compact m).1.blocks.filter (fun b => b.is_free)).length ≤ 1 ∧
      (compact m).1.blocks =
        place_blocks 0 (m.blocks.filter (fun b => !b.is_free)) ++
          (if sum_sizes (m.blocks.filter (fun b => !b.is_free)) = m.total_memory
           then []
           else [⟨sum_sizes (m.blocks.filter (fun b => !b.is_free)),
             m.total_memory - sum_sizes (m.blocks.filter (fun b => !b.is_free)),
             true, none⟩]) ∧
      (∀ b ∈ place_blocks 0 (m.blocks.filter (fun b => !b.is_free)),
        ∀ n, b.process_name = some n → (n, b) ∈ (compact m).1.process_map)) := by
  have hsizes : ∀ b ∈ m.blocks.filter (fun b => !b.is_free), 0 < b.size :=
    fun b hb => chain_ok_sizes_pos hch b (List.mem_of_mem_filter hb)
  have hsum_le : sum_sizes (m.blocks.filter (fun b => !b.is_free)) ≤
      m.total_memory := by
    have htotsum : end_pos 0 m.blocks = 0 + sum_sizes m.blocks :=
      end_pos_eq_add_sum hch
    have := sum_sizes_filter_le
      (fun b hb => le_of_lt (chain_ok_sizes_pos hch b hb))
      (fun b => !b.is_free)
    omega
  constructor
  · constructor
    · intro hf
      by_contra hne
      rw [compact_success_shape m hne] at hf
      cases hf
    · intro he
      rw [compact_empty_shape m he]
  · intro hne
    rw [compact_success_shape m hne]
    have hpl_chain := place_blocks_chain (l := m.blocks.filter (fun b => !b.is_free)) 0 hsizes
    have hpl_end : end_pos 0
        (place_blocks 0 (m.blocks.filter (fun b => !b.is_free))) =
        sum_sizes (m.blocks.filter (fun b => !b.is_free)) := by
      rw [place_blocks_end]
      ring
    have hpl_alloc := place_blocks_alloc (m.blocks.filter (fun b => !b.is_free)) 0
    refine ⟨rfl, rfl, ?_, ?_, ?_, ?_, ?_, ?_⟩
    · show ((if _ then _ else _ : List MemoryBlock).filter _).map _ = _
      split
      · rw [List.filter_append, filter_alloc_place]
        rw [show (List.filter (fun b => !b.is_free)
          [(⟨sum_sizes (m.blocks.filter (fun b => !b.is_free)),
            m.total_memory - sum_sizes (m.blocks.filter (fun b => !b.is_free)),
            true, none⟩ : MemoryBlock)]) = [] from rfl]
        rw [List.append_nil, place_map_sizes]
      · rw [filter_alloc_place, place_map_sizes]
    · show chain_ok 0 (if _ then _ else _ : List MemoryBlock) = true
      split
      · rename_i hfs
        rw [chain_ok_append, Bool.and_eq_true]
        refine ⟨hpl_chain, chain_ok_cons.mpr ⟨by rw [hpl_end], ?_, rfl⟩⟩
        show 0 < m.total_memory - sum_sizes (m.blocks.filter (fun b => !b.is_free))
        exact hfs
      · exact hpl_chain
    · show end_pos 0 (if _ then _ else _ : List MemoryBlock) = m.total_memory
      split
      · rw [end_pos_append, hpl_end]
        show sum_sizes (m.blocks.filter (fun b => !b.is_free)) +
          (m.total_memory - sum_sizes (m.blocks.filter (fun b => !b.is_free))) =
          m.total_memory
        ring
      · rename_i hfs
        rw [hpl_end]
        omega
    · show ((if _ then _ else _ : List MemoryBlock).filter _).length ≤ 1
      split
      · rw [List.filter_append]
        rw [show (List.filter (fun b => b.is_free)
          (place_blocks 0 (m.blocks.filter (fun b => !b.is_free)))) = []
          from List.filter_eq_nil.mpr
            (fun b hb => by rw [hpl_alloc b hb]; exact Bool.false_ne_true)]
        simp
      · rw [show (List.filter (fun b => b.is_free)
          (place_blocks 0 (m.blocks.filter (fun b => !b.is_free)))) = []
          from List.filter_eq_nil.mpr
            (fun b hb => by rw [hpl_alloc b hb]; exact Bool.false_ne_true)]
        simp
    · by_cases hfull : sum_sizes (m.blocks.filter (fun b => !b.is_free)) =
          m.total_memory
      · rw [if_pos hfull, if_neg (by omega), List.append_nil]
      · rw [if_neg hfull, if_pos (by omega)]
    · intro b hb n hn
      have hnd : ((place_blocks 0
          (m.blocks.filter (fun b => !b.is_free))).filterMap
          (fun c => c.process_name)).Nodup := by
        rw [place_filterMap_names]
        obtain ⟨hnd_o, _, _, _⟩ := (registry_consistent_iff m).mp hrc
        rw [owners_eq_filter] at hnd_o
        exact hnd_o
      exact rb_mem _ _ hnd hb hn

/-- C3 witness: compaction on a concrete state with one allocated block
and one free block. -/
theorem C3_compact_witness :
    chain_ok 0 ((allocate (mk_manager 8) "A" 2 false).1).blocks = true ∧
    end_pos 0 ((allocate (mk_manager 8) "A" 2 false).1).blocks =
      ((allocate (mk_manager 8) "A" 2 false).1).total_memory ∧
    registry_consistent ((allocate (mk_manager 8) "A" 2 false).1) = true ∧
    ((compact ((allocate (mk_manager 8) "A" 2 false).1)).2.1 = false ↔
      ((allocate (mk_manager 8) "A" 2 false).1).blocks.filter
        (fun b => !b.is_free) = []) ∧
    (compact ((allocate (mk_manager 8) "A" 2 false).1)).2.2.2 =
      (((allocate (mk_manager 8) "A" 2 false).1).blocks.filter
        (fun b => !b.is_free)).length :=
  ⟨by decide, by decide, by decide,
    (C3_compact ((allocate (mk_manager 8) "A" 2 false).1)
      (by decide) (by decide) (by decide)).1,
    ((C3_compact ((allocate (mk_manager 8) "A" 2 false).1)
      (by decide) (by decide) (by decide)).2 (by decide)).1⟩

/-! ## Allocate/deallocate round trip (C6) -/

theorem no_owner_of_no_key {m : Manager} {name : String}
    (hrc : registry_consistent m = true)
    (hdup : map_has_key m.process_map name = false) :
    ∀ x ∈ m.blocks, ¬(x.is_free = false ∧ x.process_name = some name) := by
  intro x hx ⟨hf, hn⟩
  exact owners_not_mem_of_no_key hrc hdup (mem_owners hx hf hn)

/-- C6: on an invariant-satisfying, registry-consistent state, a
successful allocate immediately followed by deallocate of the same
process restores the block list and the registry exactly to their
pre-allocation values (hence in particular the same free-block
boundaries). -/
theorem C6_roundtrip (m : Manager) (name : String) (size : Int) (r : Bool)
    (hadj : no_adj_free m.blocks = true)
    (hrc : registry_consistent m = true)
    (hsucc : (allocate m name size r).2.1 = true) :
    (deallocate (allocate m name size r).1 name).1.blocks = m.blocks ∧
    (deallocate (allocate m name size r).1 name).1.process_map =
      m.process_map ∧
    (deallocate (allocate m name size r).1 name).1.total_memory =
      m.total_memory := by
  cases hdup : map_has_key m.process_map name with
  | true =>
    rw [allocate_dup_shape m name size r hdup] at hsucc
    cases hsucc
  | false =>
    cases hfbf : find_best_fit m.blocks
        (if r then round_to_power_of_2 size else size) with
    | none =>
      rw [allocate_nofit_shape m name size r hdup hfbf] at hsucc
      cases hsucc
    | some i =>
      obtain ⟨b, hget, hbf, hbs, _, _⟩ := find_best_fit_some hfbf
      have hsplit := list_splice_at hget
      have hbmem : b ∈ m.blocks := List.get?_mem hget
      obtain ⟨_, _, _, hblocks⟩ := (registry_consistent_iff m).mp hrc
      have hbnone : b.process_name = none := (hblocks b hbmem).1 hbf
      have hnoown := no_owner_of_no_key hrc hdup
      have hnotake : ∀ x ∈ m.blocks.take i,
          ¬(x.is_free = false ∧ x.process_name = some name) :=
        fun x hx => hnoown x (List.take_subset _ _ hx)
      have hpmfilter : m.process_map.filter (fun p => decide (p.1 ≠ name)) =
          m.process_map := by
        refine List.filter_eq_self.mpr ?_
        intro p hp
        simp only [decide_eq_true_eq]
        intro he
        have : map_has_key m.process_map name = true := by
          simp only [map_has_key, List.any_eq_true]
          exact ⟨p, hp, by simp [he]⟩
        rw [hdup] at this
        cases this
      have hadj' : no_adj_free (m.blocks.take i ++ b :: m.blocks.drop (i + 1))
          = true := by rw [← hsplit]; exact hadj
      obtain ⟨hshape1, hshape2⟩ :=
        allocate_success_shape m name size r hdup hfbf hget
      by_cases hlt : (if r then round_to_power_of_2 size else size) < b.size
      · rw [hshape1 hlt]
        have hkey : map_has_key (m.process_map ++
            [(name, (⟨b.start, (if r then round_to_power_of_2 size else size),
              false, some name⟩ : MemoryBlock))]) name = true := by
          rw [map_has_key_append]
          simp [map_has_key]
        rw [deallocate_found_shape _ _ hkey]
        dsimp only
        simp only [List.append_assoc, List.cons_append, List.nil_append]
        have hff : free_first name (m.blocks.take i ++
            (⟨b.start, (if r then round_to_power_of_2 size else size),
              false, some name⟩ : MemoryBlock) ::
            (⟨b.start + (if r then round_to_power_of_2 size else size),
              b.size - (if r then round_to_power_of_2 size else size),
              true, none⟩ : MemoryBlock) :: m.blocks.drop (i + 1)) =
            m.blocks.take i ++
            (⟨b.start, (if r then round_to_power_of_2 size else size),
              true, none⟩ : MemoryBlock) ::
            (⟨b.start + (if r then round_to_power_of_2 size else size),
              b.size - (if r then round_to_power_of_2 size else size),
              true, none⟩ : MemoryBlock) :: m.blocks.drop (i + 1) :=
          free_first_splice rfl rfl hnotake
        rw [hff]
        have hmerge : merge_free_blocks (m.blocks.take i ++
            (⟨b.start, (if r then round_to_power_of_2 size else size),
              true, none⟩ : MemoryBlock) ::
            (⟨b.start + (if r then round_to_power_of_2 size else size),
              b.size - (if r then round_to_power_of_2 size else size),
              true, none⟩ : MemoryBlock) :: m.blocks.drop (i + 1)) =
            m.blocks.take i ++
            (⟨b.start,
              (if r then round_to_power_of_2 size else size) +
                (b.size - (if r then round_to_power_of_2 size else size)),
              true, none⟩ : MemoryBlock) :: m.blocks.drop (i + 1) :=
          merge_splice (b := b) hbf rfl rfl hadj'
        rw [hmerge]
        have hbeq : (⟨b.start,
            (if r then round_to_power_of_2 size else size) +
              (b.size - (if r then round_to_power_of_2 size else size)),
            true, none⟩ : MemoryBlock) = b := by
          have h1 : (if r then round_to_power_of_2 size else size) +
              (b.size - (if r then round_to_power_of_2 size else size)) =
              b.size := by ring
          rw [h1, ← hbf, ← hbnone]
        refine ⟨?_, ?_, trivial⟩
        · exact (congrArg
            (fun z => m.blocks.take i ++ z :: m.blocks.drop (i + 1))
            hbeq).trans hsplit.symm
        · rw [List.filter_append, hpmfilter]
          simp
      · rw [hshape2 hlt]
        have hkey : map_has_key (m.process_map ++
            [(name, { b with is_free := false, process_name := some name })])
            name = true := by
          rw [map_has_key_append]
          simp [map_has_key]
        rw [deallocate_found_shape _ _ hkey]
        dsimp only
        simp only [List.append_assoc, List.cons_append, List.nil_append]
        have hff : free_first name (m.blocks.take i ++
            ({ b with is_free := false, process_name := some name}) ::
            m.blocks.drop (i + 1)) =
            m.blocks.take i ++
            ({ b with is_free := true, process_name := none}) ::
            m.blocks.drop (i + 1) :=
          free_first_splice rfl rfl hnotake
        rw [hff]
        have hbeq : ({ b with is_free := true, process_name := none} :
            MemoryBlock) = b := by
          rw [← hbf, ← hbnone]
        rw [hbeq, ← hsplit, merge_id_of_no_adj hadj]
        refine ⟨rfl, ?_, trivial⟩
        rw [List.filter_append, hpmfilter]
        simp

/-- C6 witness: allocate then deallocate "A" on a fresh manager restores
the initial single free block and empty registry. -/
theorem C6_roundtrip_witness :
    no_adj_free (mk_manager 8).blocks = true ∧
    registry_consistent (mk_manager 8) = true ∧
    (allocate (mk_manager 8) "A" 2 false).2.1 = true ∧
    (deallocate (allocate (mk_manager 8) "A" 2 false).1 "A").1.blocks =
      (mk_manager 8).blocks :=
  ⟨by decide, by decide, by decide,
    (C6_roundtrip (mk_manager 8) "A" 2 false (by decide) (by decide)
      (by decide)).1⟩
